import Mathlib

/-!
# containers-go: the doubly linked list

A shallow embedding of `linked_list/node.go`, `linked_list/instance.go` and
`utils/functions.go`.

Go pointers are modelled by addresses into two heaps held by a `Store`: one heap
of `LinkedListNode` cells and one heap of `LinkedList` objects.  A pointer is an
`Option Nat`: `none` is `nil`, `some a` is the cell at address `a`.  Allocation
appends a cell to the heap, so a fresh address is the current heap length.

Every method receives the store and its receiver pointer and returns either a
`Fault` (the Go program panics, or a loop of the model ran out of fuel) or its
Go result together with the store it leaves behind.  An assignment to the local
variable `list` inside a method (`list = &LinkedList{...}`, `list = nil`)
rebinds the local variable only: the object the caller points to is not written.

Go's `int` is modelled by `Int`; no list of `2^63` nodes fits in memory, so the
wrap-around of `size` is out of reach.
-/

namespace linkedlist

/-- Ways in which a run of the model stops without a Go result. -/
inductive Fault where
  /-- A field of a nil pointer was read or written: the Go runtime panics. -/
  | nilDeref
  /-- An address outside the heap (no Go pointer is ever such an address). -/
  | badAddr
  /-- A loop of the model used up its fuel. -/
  | outOfFuel
deriving DecidableEq

/-- The struct `LinkedListNode[T]` of `node.go`. -/
structure LinkedListNode (T : Type) where
  value : T
  previous : Option Nat
  next : Option Nat
deriving DecidableEq

/-- The struct `LinkedList[T]` of `instance.go`. -/
structure LinkedList where
  head : Option Nat
  tail : Option Nat
  size : Int
deriving DecidableEq

/-- The two heaps: node cells and list objects. -/
structure Store (T : Type) where
  nodes : List (LinkedListNode T)
  lists : List LinkedList
deriving DecidableEq

variable {T : Type}

/-- Read the node cell a pointer refers to. -/
def loadNode (s : Store T) : Option Nat → Except Fault (LinkedListNode T)
  | none => .error .nilDeref
  | some a =>
    match s.nodes[a]? with
    | some n => .ok n
    | none => .error .badAddr

/-- Overwrite fields of the node cell a pointer refers to. -/
def updateNode (s : Store T) (p : Option Nat)
    (f : LinkedListNode T → LinkedListNode T) : Except Fault (Store T) :=
  match p with
  | none => .error .nilDeref
  | some a =>
    match s.nodes[a]? with
    | some n => .ok { s with nodes := s.nodes.set a (f n) }
    | none => .error .badAddr

/-- Read the list object a pointer refers to. -/
def loadList (s : Store T) : Option Nat → Except Fault LinkedList
  | none => .error .nilDeref
  | some a =>
    match s.lists[a]? with
    | some l => .ok l
    | none => .error .badAddr

/-- Overwrite fields of the list object a pointer refers to. -/
def updateList (s : Store T) (p : Option Nat)
    (f : LinkedList → LinkedList) : Except Fault (Store T) :=
  match p with
  | none => .error .nilDeref
  | some a =>
    match s.lists[a]? with
    | some l => .ok { s with lists := s.lists.set a (f l) }
    | none => .error .badAddr

/-- The expression `&LinkedList[T]{head: h, tail: t, size: n}`: a fresh list object. -/
def allocList (s : Store T) (l : LinkedList) : Nat × Store T :=
  (s.lists.length, { s with lists := s.lists ++ [l] })

/-- The function `NewLinkedListNode` of `node.go`: a fresh node with both links nil. -/
def NewLinkedListNode (s : Store T) (value : T) : Nat × Store T :=
  (s.nodes.length, { s with nodes := s.nodes ++ [⟨value, none, none⟩] })

/-- The function `NewLinkedList`: a fresh list object with no head, no tail, size 0. -/
def NewLinkedList (s : Store T) : Option Nat × Store T :=
  let r := allocList s ⟨none, none, 0⟩
  (some r.1, r.2)

/-- The store of a program that has allocated nothing yet. -/
def Store.empty : Store T := ⟨[], []⟩

/-- The function `DefaultEquals` of `utils/functions.go`; `sprint` stands for
`fmt.Sprint` at the element type. -/
def DefaultEquals (sprint : T → String) (a b : T) : Bool :=
  sprint a == sprint b

/-- The method `Size`. -/
def Size (s : Store T) (list : Option Nat) : Except Fault (Int × Store T) := do
  let l ← loadList s list
  pure (l.size, s)

/-- The method `IsEmpty`. -/
def IsEmpty (s : Store T) (list : Option Nat) : Except Fault (Bool × Store T) := do
  let l ← loadList s list
  pure (l.size == 0, s)

/-- The method `AddFront`. -/
def AddFront (s : Store T) (list : Option Nat) (value : T) :
    Except Fault (Bool × Store T) := do
  let (newNode, s) := NewLinkedListNode s value
  let l ← loadList s list
  if l.size == 0 then
    -- `list = &LinkedList[T]{...}`: the fresh object is bound to the local variable only.
    let (_, s) := allocList s ⟨some newNode, some newNode, 1⟩
    pure (true, s)
  else
    -- `list.head.previous = newNode`
    let l ← loadList s list
    let s ← updateNode s l.head (fun n => { n with previous := some newNode })
    -- `newNode.next = list.head`
    let l ← loadList s list
    let s ← updateNode s (some newNode) (fun n => { n with next := l.head })
    -- `list.head = newNode`
    let s ← updateList s list (fun l => { l with head := some newNode })
    -- `list.size++`
    let s ← updateList s list (fun l => { l with size := l.size + 1 })
    pure (true, s)

/-- The method `AddBack`. -/
def AddBack (s : Store T) (list : Option Nat) (value : T) :
    Except Fault (Bool × Store T) := do
  let (newNode, s) := NewLinkedListNode s value
  let l ← loadList s list
  if l.size == 0 then
    -- `list = &LinkedList[T]{...}`: the fresh object is bound to the local variable only.
    let (_, s) := allocList s ⟨some newNode, some newNode, 1⟩
    pure (true, s)
  else
    -- `list.tail.next = newNode`
    let l ← loadList s list
    let s ← updateNode s l.tail (fun n => { n with next := some newNode })
    -- `newNode.previous = list.tail`
    let l ← loadList s list
    let s ← updateNode s (some newNode) (fun n => { n with previous := l.tail })
    -- `list.tail = newNode`
    let s ← updateList s list (fun l => { l with tail := some newNode })
    -- `list.size++`
    let s ← updateList s list (fun l => { l with size := l.size + 1 })
    pure (true, s)

/-- The loop `current = current.next`, run `k` times. -/
def advance (s : Store T) (current : Option Nat) : Nat → Except Fault (Option Nat)
  | 0 => .ok current
  | k + 1 => do
    let n ← loadNode s current
    advance s n.next k

/-- The method `AddAt`. -/
def AddAt (s : Store T) (list : Option Nat) (index : Int) (value : T) :
    Except Fault (Bool × Store T) := do
  if index == 0 then
    AddFront s list value
  else
    -- `if index == list.size { list.AddBack(value) }`: no return, control goes on below.
    let l ← loadList s list
    let s ← (if index == l.size then (do let r ← AddBack s list value; pure r.2) else pure s)
    let l ← loadList s list
    if index < 0 || index >= l.size then
      pure (false, s)
    else
      let l ← loadList s list
      -- `for i := 0; i < index-1; i++ { current = current.next }`
      let current ← advance s l.head (index - 1).toNat
      let (newNode, s) := NewLinkedListNode s value
      -- `current.next.previous = newNode`
      let c ← loadNode s current
      let s ← updateNode s c.next (fun n => { n with previous := some newNode })
      -- `newNode.next = current.next`
      let c ← loadNode s current
      let s ← updateNode s (some newNode) (fun n => { n with next := c.next })
      -- `newNode.previous = current`
      let s ← updateNode s (some newNode) (fun n => { n with previous := current })
      -- `current.next = newNode`
      let s ← updateNode s current (fun n => { n with next := some newNode })
      -- `list.size++`
      let s ← updateList s list (fun l => { l with size := l.size + 1 })
      pure (true, s)

/-- The method `PeekFront`. -/
def PeekFront [Inhabited T] (s : Store T) (list : Option Nat) :
    Except Fault (T × Store T) := do
  if list == none then
    pure (default, s)
  else
    let l ← loadList s list
    if l.size == 0 then
      pure (default, s)
    else
      let l ← loadList s list
      let h ← loadNode s l.head
      pure (h.value, s)

/-- The method `PeekBack`. -/
def PeekBack [Inhabited T] (s : Store T) (list : Option Nat) :
    Except Fault (T × Store T) := do
  if list == none then
    pure (default, s)
  else
    let l ← loadList s list
    if l.size == 0 then
      pure (default, s)
    else
      let l ← loadList s list
      let t ← loadNode s l.tail
      pure (t.value, s)

/-- The method `Get`.  The guard is `index < 0 || index >= list.size || list == nil`,
evaluated left to right: `list.size` is read before `list` is compared with nil. -/
def Get [Inhabited T] (s : Store T) (list : Option Nat) (index : Int) :
    Except Fault (T × Store T) := do
  if index < 0 then
    pure (default, s)
  else
    let l ← loadList s list
    if index >= l.size then
      pure (default, s)
    else if list == none then
      pure (default, s)
    else
      let l ← loadList s list
      -- `for i < index { current = current.next; i++ }`
      let current ← advance s l.head index.toNat
      let c ← loadNode s current
      pure (c.value, s)

/-- The loop of `IndexOf`: `fuel` bounds the number of times the loop condition is tested. -/
def IndexOf.loop (sprint : T → String) (s : Store T) (value : T) :
    Nat → Option Nat → Int → Except Fault Int
  | 0, _, _ => .error .outOfFuel
  | fuel + 1, current, index => do
    let c ← loadNode s current
    if !DefaultEquals sprint c.value value then
      if c.next == none then
        pure (-1)
      else
        IndexOf.loop sprint s value fuel c.next (index + 1)
    else
      pure index

/-- The method `IndexOf`. -/
def IndexOf (sprint : T → String) (fuel : Nat) (s : Store T) (list : Option Nat)
    (value : T) : Except Fault (Int × Store T) := do
  let l ← loadList s list
  if l.size == 0 then
    pure (-1, s)
  else
    let l ← loadList s list
    let r ← IndexOf.loop sprint s value fuel l.head 0
    pure (r, s)

/-- The method `Contains`. -/
def Contains (sprint : T → String) (fuel : Nat) (s : Store T) (list : Option Nat)
    (value : T) : Except Fault (Bool × Store T) := do
  let (index, s) ← IndexOf sprint fuel s list value
  pure (index != -1, s)

/-- The method `RemoveFront`. -/
def RemoveFront [Inhabited T] (s : Store T) (list : Option Nat) :
    Except Fault (T × Store T) := do
  if list == none then
    pure (default, s)
  else
    let l ← loadList s list
    if l.size == 0 then
      pure (default, s)
    else
      -- `value := list.head.value`
      let l ← loadList s list
      let h ← loadNode s l.head
      let value := h.value
      let l ← loadList s list
      let h ← loadNode s l.head
      if h.next != none then
        -- `list.head.next.previous = nil`
        let l ← loadList s list
        let h ← loadNode s l.head
        let s ← updateNode s h.next (fun n => { n with previous := none })
        -- `list.head = list.head.next`
        let l ← loadList s list
        let h ← loadNode s l.head
        let s ← updateList s list (fun l => { l with head := h.next })
        -- `list.size--`
        let s ← updateList s list (fun l => { l with size := l.size - 1 })
        pure (value, s)
      else
        -- `list = nil`: the local variable only.
        pure (value, s)

/-- The method `RemoveBack`. -/
def RemoveBack [Inhabited T] (s : Store T) (list : Option Nat) :
    Except Fault (T × Store T) := do
  if list == none then
    pure (default, s)
  else
    let l ← loadList s list
    if l.size == 0 then
      pure (default, s)
    else
      -- `value := list.tail.value`
      let l ← loadList s list
      let t ← loadNode s l.tail
      let value := t.value
      let l ← loadList s list
      let t ← loadNode s l.tail
      if t.next != none then
        -- `list.tail.previous.next = nil`
        let l ← loadList s list
        let t ← loadNode s l.tail
        let s ← updateNode s t.previous (fun n => { n with next := none })
        -- `list.tail = list.tail.previous`
        let l ← loadList s list
        let t ← loadNode s l.tail
        let s ← updateList s list (fun l => { l with tail := t.previous })
        -- `list.size--`
        let s ← updateList s list (fun l => { l with size := l.size - 1 })
        pure (value, s)
      else
        -- `list = nil`: the local variable only.
        pure (value, s)

/-- The method `RemoveAt`. -/
def RemoveAt [Inhabited T] (s : Store T) (list : Option Nat) (index : Int) :
    Except Fault (T × Store T) := do
  if list == none then
    pure (default, s)
  else
    let l ← loadList s list
    if l.size == 0 then
      pure (default, s)
    else if index == 0 then
      RemoveFront s list
    else
      let l ← loadList s list
      if index == l.size - 1 then
        RemoveBack s list
      else
        let l ← loadList s list
        if index < 0 || index >= l.size then
          pure (default, s)
        else
          let l ← loadList s list
          -- `for i < index { current = current.next; i++ }`
          let current ← advance s l.head index.toNat
          -- `current.previous.next = current.next`
          let c ← loadNode s current
          let c2 ← loadNode s current
          let s ← updateNode s c.previous (fun n => { n with next := c2.next })
          -- `current.next.previous = current.previous`
          let c ← loadNode s current
          let c2 ← loadNode s current
          let s ← updateNode s c.next (fun n => { n with previous := c2.previous })
          -- `list.size--`
          let s ← updateList s list (fun l => { l with size := l.size - 1 })
          let c ← loadNode s current
          pure (c.value, s)

/-- The method `Remove`. -/
def Remove [Inhabited T] (sprint : T → String) (fuel : Nat) (s : Store T)
    (list : Option Nat) (value : T) : Except Fault (T × Store T) := do
  let (index, s) ← IndexOf sprint fuel s list value
  if index == -1 then
    pure (default, s)
  else
    RemoveAt s list index

/-- The method `Clear`: `list = nil` rebinds the local variable and nothing else. -/
def Clear (s : Store T) (_list : Option Nat) : Except Fault (Unit × Store T) :=
  pure ((), s)

/-- The method `FromArray`: `AddBack` of every item in turn, then the receiver. -/
def FromArray (s : Store T) (list : Option Nat) :
    List T → Except Fault (Option Nat × Store T)
  | [] => pure (list, s)
  | a :: array => do
    let r ← AddBack s list a
    FromArray r.2 list array


/-! ## Well-formed lists -/

/-- The first address of a chain, or `d` when the chain is empty. -/
def firstOr (ps : List Nat) (d : Option Nat) : Option Nat :=
  match ps with
  | [] => d
  | p :: _ => some p

/-- The last address of a chain, or `d` when the chain is empty. -/
def lastOr (ps : List Nat) (d : Option Nat) : Option Nat :=
  match ps with
  | [] => d
  | p :: ps => lastOr ps (some p)

/-- `Seg nodes prev ps xs nxt`: the cells at addresses `ps` hold the values `xs`, each
cell's `next` is the following address (`nxt` for the last one) and each cell's
`previous` is the preceding address (`prev` for the first one). -/
def Seg (nodes : List (LinkedListNode T)) :
    Option Nat → List Nat → List T → Option Nat → Prop
  | _, [], [], _ => True
  | prev, p :: ps, x :: xs, nxt =>
    nodes[p]? = some ⟨x, prev, firstOr ps nxt⟩ ∧ Seg nodes (some p) ps xs nxt
  | _, _, _, _ => False

/-- Whether `Seg` holds is decided by inspecting the cells at `ps`. -/
instance Seg.instDecidable [DecidableEq T] (nodes : List (LinkedListNode T)) :
    ∀ (prev : Option Nat) (ps : List Nat) (xs : List T) (nxt : Option Nat),
      Decidable (Seg nodes prev ps xs nxt)
  | _, [], [], _ => isTrue trivial
  | prev, p :: ps, x :: xs, nxt =>
    have := Seg.instDecidable nodes (some p) ps xs nxt
    inferInstanceAs (Decidable
      (nodes[p]? = some ⟨x, prev, firstOr ps nxt⟩ ∧ Seg nodes (some p) ps xs nxt))
  | _, [], _ :: _, _ => isFalse (fun h => h)
  | _, _ :: _, [], _ => isFalse (fun h => h)

/-- `Represents s list ps xs`: the list object at address `list` is a well-formed doubly
linked list whose nodes, from head to tail, live at the addresses `ps` and hold the values
`xs`: `head` is the first address and `tail` the last (both nil exactly when there is no
node), `size` is the number of nodes, the `next` links run through `ps` and end in nil,
and the `previous` links run through `ps` backwards and end in nil.  The addresses are
pairwise distinct; `Seg_nodup` shows that the links alone already force this. -/
structure Represents (s : Store T) (list : Nat) (ps : List Nat) (xs : List T) : Prop where
  obj : s.lists[list]? = some ⟨ps.head?, ps.getLast?, ps.length⟩
  nodup : ps.Nodup
  chain : Seg s.nodes none ps xs none

/-- Whether `Represents` holds is decided by inspecting the list object and its cells. -/
instance Represents.instDecidable [DecidableEq T] (s : Store T) (list : Nat)
    (ps : List Nat) (xs : List T) : Decidable (Represents s list ps xs) :=
  decidable_of_iff
    (s.lists[list]? = some ⟨ps.head?, ps.getLast?, ps.length⟩ ∧ ps.Nodup ∧
      Seg s.nodes none ps xs none)
    ⟨fun h => ⟨h.1, h.2.1, h.2.2⟩, fun h => ⟨h.obj, h.nodup, h.chain⟩⟩

/-- The position, counted from `k`, of the first value of `xs` that `DefaultEquals`
reports equal to `v`; `-1` when there is none. -/
def firstMatch (sprint : T → String) (v : T) : List T → Int → Int
  | [], _ => -1
  | x :: xs, k => if DefaultEquals sprint x v then k else firstMatch sprint v xs (k + 1)

/-- The well-formed list `[10]`: one node at address 0, the list object at address 0. -/
def list_10 : Store Int := ⟨[⟨10, none, none⟩], [⟨some 0, some 0, 1⟩]⟩

/-- The well-formed list `[10, 20]`. -/
def list_10_20 : Store Int :=
  ⟨[⟨10, none, some 1⟩, ⟨20, some 0, none⟩], [⟨some 0, some 1, 2⟩]⟩

/-- The well-formed list `[10, 20, 30]`. -/
def list_10_20_30 : Store Int :=
  ⟨[⟨10, none, some 1⟩, ⟨20, some 0, some 2⟩, ⟨30, some 1, none⟩], [⟨some 0, some 2, 3⟩]⟩

/-! ## Calls and sequences of calls -/

/-- One call of a public method of `LinkedList`, with its arguments. -/
inductive Operation (T : Type) where
  | addFront (value : T)
  | addBack (value : T)
  | addAt (index : Int) (value : T)
  | fromArray (array : List T)
  | size
  | isEmpty
  | peekFront
  | peekBack
  | get (index : Int)
  | indexOf (value : T)
  | contains (value : T)
  | removeFront
  | removeBack
  | remove (value : T)
  | removeAt (index : Int)
  | clear

/-- Whether the call is `AddFront` or `AddBack`. -/
def Operation.isInsertion : Operation T → Bool
  | .addFront _ => true
  | .addBack _ => true
  | _ => false

/-- Whether the call is `RemoveFront` or `RemoveBack`. -/
def Operation.isRemoval : Operation T → Bool
  | .removeFront => true
  | .removeBack => true
  | _ => false

/-- Run one call on the receiver `list`; the Go result is dropped, the store is kept. -/
def Operation.run [Inhabited T] (sprint : T → String) (fuel : Nat) (s : Store T)
    (list : Option Nat) : Operation T → Except Fault (Store T)
  | .addFront v => (AddFront s list v).map Prod.snd
  | .addBack v => (AddBack s list v).map Prod.snd
  | .addAt i v => (AddAt s list i v).map Prod.snd
  | .fromArray a => (FromArray s list a).map Prod.snd
  | .size => (Size s list).map Prod.snd
  | .isEmpty => (IsEmpty s list).map Prod.snd
  | .peekFront => (PeekFront s list).map Prod.snd
  | .peekBack => (PeekBack s list).map Prod.snd
  | .get i => (Get s list i).map Prod.snd
  | .indexOf v => (IndexOf sprint fuel s list v).map Prod.snd
  | .contains v => (Contains sprint fuel s list v).map Prod.snd
  | .removeFront => (RemoveFront s list).map Prod.snd
  | .removeBack => (RemoveBack s list).map Prod.snd
  | .remove v => (Remove sprint fuel s list v).map Prod.snd
  | .removeAt i => (RemoveAt s list i).map Prod.snd
  | .clear => (Clear s list).map Prod.snd

/-- Run a sequence of calls on the receiver `list`, one after the other. -/
def runAll [Inhabited T] (sprint : T → String) (fuel : Nat) (list : Option Nat) :
    Store T → List (Operation T) → Except Fault (Store T)
  | s, [] => .ok s
  | s, op :: ops => do
    let s' ← op.run sprint fuel s list
    runAll sprint fuel list s' ops

/-! ## The structural invariants -/

/-- The addresses of the `k` nodes met from `p` by following `next` links; `none` when the
walk meets nil, or leaves the heap, before `k` nodes have been seen. -/
def nextChain (s : Store T) : Nat → Option Nat → Option (List Nat)
  | 0, _ => some []
  | _ + 1, none => none
  | k + 1, some a =>
    match s.nodes[a]? with
    | none => none
    | some n => (nextChain s k n.next).map (fun r => a :: r)

/-- The addresses of the `k` nodes met from `p` by following `previous` links. -/
def prevChain (s : Store T) : Nat → Option Nat → Option (List Nat)
  | 0, _ => some []
  | _ + 1, none => none
  | k + 1, some a =>
    match s.nodes[a]? with
    | none => none
    | some n => (prevChain s k n.previous).map (fun r => a :: r)

/-- The structural invariants of the list object at address `list`:
(a) `size == 0` iff head and tail are both absent;
(b) when `size >= 1`, `head.previous` and `tail.next` are absent;
(c) the chain of `next` links from head visits exactly `size` nodes and ends at tail, and
the chain of `previous` links from tail visits the same nodes in reverse and ends at head. -/
def Invariants (s : Store T) (list : Nat) : Prop :=
  ∃ l, s.lists[list]? = some l ∧
    (l.size = 0 ↔ l.head = none ∧ l.tail = none) ∧
    (1 ≤ l.size → ∃ h t, loadNode s l.head = .ok h ∧ h.previous = none ∧
      loadNode s l.tail = .ok t ∧ t.next = none) ∧
    ∃ ps : List Nat, (ps.length : Int) = l.size ∧
      nextChain s ps.length l.head = some ps ∧ ps.getLast? = l.tail ∧
      prevChain s ps.length l.tail = some ps.reverse ∧ ps.head? = l.head

/-! ## Chains of cells -/

theorem firstOr_none (ps : List Nat) : firstOr ps none = ps.head? := by
  cases ps <;> rfl

theorem lastOr_eq (ps : List Nat) (d : Option Nat) :
    lastOr ps d = match ps.getLast? with
      | some q => some q
      | none => d := by
  induction ps generalizing d with
  | nil => rfl
  | cons p ps ih =>
    rw [lastOr, ih]
    cases ps with
    | nil => rfl
    | cons q qs =>
      rw [List.getLast?_cons_cons]
      cases h : (q :: qs).getLast? with
      | none => simp at h
      | some r => rfl

theorem lastOr_none (ps : List Nat) : lastOr ps none = ps.getLast? := by
  rw [lastOr_eq]
  cases ps.getLast? <;> rfl

theorem firstOr_cons (p : Nat) (ps : List Nat) (d : Option Nat) :
    firstOr (p :: ps) d = some p := rfl

theorem lastOr_cons (p : Nat) (ps : List Nat) (d : Option Nat) :
    lastOr (p :: ps) d = lastOr ps (some p) := rfl

theorem firstOr_append (ps qs : List Nat) (d : Option Nat) :
    firstOr (ps ++ qs) d = firstOr ps (firstOr qs d) := by
  cases ps <;> rfl

theorem lastOr_append (ps qs : List Nat) (d : Option Nat) :
    lastOr (ps ++ qs) d = lastOr qs (lastOr ps d) := by
  induction ps generalizing d with
  | nil => rfl
  | cons p ps ih => simp [lastOr, ih]

theorem Seg_length_eq {nodes : List (LinkedListNode T)} {prev nxt : Option Nat}
    {ps : List Nat} {xs : List T} (h : Seg nodes prev ps xs nxt) :
    ps.length = xs.length := by
  induction ps generalizing prev xs with
  | nil => cases xs <;> simp_all [Seg]
  | cons p ps ih =>
    cases xs with
    | nil => simp [Seg] at h
    | cons x xs => simp [Seg] at h; simp [ih h.2]

theorem Seg_append {nodes : List (LinkedListNode T)} (ps1 : List Nat) (xs1 : List T)
    (hlen : ps1.length = xs1.length) (prev nxt : Option Nat) (ps2 : List Nat)
    (xs2 : List T) :
    Seg nodes prev (ps1 ++ ps2) (xs1 ++ xs2) nxt ↔
      Seg nodes prev ps1 xs1 (firstOr ps2 nxt) ∧ Seg nodes (lastOr ps1 prev) ps2 xs2 nxt := by
  induction ps1 generalizing prev xs1 with
  | nil =>
    cases xs1 with
    | nil => simp [Seg, lastOr]
    | cons x xs1 => simp at hlen
  | cons p ps1 ih =>
    cases xs1 with
    | nil => simp at hlen
    | cons x xs1 =>
      simp only [List.length_cons, add_left_inj] at hlen
      rw [List.cons_append, List.cons_append]
      simp only [Seg]
      rw [ih xs1 hlen, firstOr_append, lastOr, and_assoc]

theorem Seg_frame {nodes nodes' : List (LinkedListNode T)} {prev nxt : Option Nat}
    {ps : List Nat} {xs : List T} (h : Seg nodes prev ps xs nxt)
    (hf : ∀ p ∈ ps, nodes'[p]? = nodes[p]?) : Seg nodes' prev ps xs nxt := by
  induction ps generalizing prev xs with
  | nil => cases xs <;> simp_all [Seg]
  | cons p ps ih =>
    cases xs with
    | nil => simp [Seg] at h
    | cons x xs =>
      simp only [Seg] at h ⊢
      refine ⟨?_, ih h.2 (fun q hq => hf q (List.mem_cons_of_mem _ hq))⟩
      rw [hf p (List.mem_cons_self _ _)]; exact h.1

theorem Seg_lt_length {nodes : List (LinkedListNode T)} {prev nxt : Option Nat}
    {ps : List Nat} {xs : List T} (h : Seg nodes prev ps xs nxt) :
    ∀ p ∈ ps, p < nodes.length := by
  induction ps generalizing prev xs with
  | nil => simp
  | cons p ps ih =>
    cases xs with
    | nil => simp [Seg] at h
    | cons x xs =>
      simp only [Seg] at h
      intro q hq
      rcases List.mem_cons.1 hq with rfl | hq
      · by_contra hge
        rw [List.getElem?_eq_none (by omega)] at h
        exact absurd h.1 (by simp)
      · exact ih h.2 q hq

/-! ## Reading and writing the store -/

theorem loadList_of {s : Store T} {a : Nat} {l : LinkedList} (h : s.lists[a]? = some l) :
    loadList s (some a) = .ok l := by
  simp [loadList, h]

theorem loadNode_of {s : Store T} {a : Nat} {n : LinkedListNode T}
    (h : s.nodes[a]? = some n) : loadNode s (some a) = .ok n := by
  simp [loadNode, h]

theorem advance_seg {s : Store T} (ps1 : List Nat) (c : Nat) (rest : List Nat)
    (xs : List T) (prev nxt : Option Nat)
    (h : Seg s.nodes prev (ps1 ++ c :: rest) xs nxt) :
    advance s (firstOr (ps1 ++ c :: rest) nxt) ps1.length = .ok (some c) := by
  induction ps1 generalizing prev xs with
  | nil => rfl
  | cons p ps1 ih =>
    cases xs with
    | nil => simp [Seg] at h
    | cons x xs =>
      rw [List.cons_append] at h
      simp only [Seg] at h
      simp only [List.cons_append, firstOr, List.length_cons, advance, loadNode_of h.1,
        bind, Except.bind]
      exact ih xs (some p) h.2

/-! ## Insertion in the middle -/

theorem AddAt_exec {s : Store T} {list : Nat} {i n : Int} {hd tl : Option Nat} {a b : Nat}
    {na nb : LinkedListNode T} (v : T)
    (hobj : s.lists[list]? = some ⟨hd, tl, n⟩)
    (hi0 : ¬ i = 0) (hin : ¬ i = n) (hr0 : ¬ i < 0) (hrn : ¬ n ≤ i)
    (hadv : advance s hd (i - 1).toNat = .ok (some a))
    (ha : s.nodes[a]? = some na) (hnext : na.next = some b)
    (hb : s.nodes[b]? = some nb) (hab : a ≠ b) :
    AddAt s (some list) i v = .ok (true,
      { nodes := (((s.nodes ++ [(⟨v, none, none⟩ : LinkedListNode T)]).set b
            { nb with previous := some s.nodes.length }).set s.nodes.length
            ⟨v, some a, some b⟩).set a { na with next := some s.nodes.length },
        lists := s.lists.set list ⟨hd, tl, n + 1⟩ }) := by
  have hal : a < s.nodes.length := by
    by_contra hge
    rw [List.getElem?_eq_none (by omega)] at ha
    exact absurd ha (by simp)
  have hbl : b < s.nodes.length := by
    by_contra hge
    rw [List.getElem?_eq_none (by omega)] at hb
    exact absurd hb (by simp)
  unfold AddAt
  simp only [beq_iff_eq, hi0, hin, if_false, loadList_of hobj, bind, Except.bind, pure,
    Except.pure, Bool.or_eq_true, decide_eq_true_eq, hr0, hrn, or_self, ge_iff_le]
  rw [hadv]
  have hne1 : ¬ s.nodes.length = a := by omega
  have hne2 : ¬ s.nodes.length = b := by omega
  have hne3 : ¬ b = a := fun h => hab h.symm
  have hne4 : ¬ a = s.nodes.length := by omega
  have hne5 : ¬ b = s.nodes.length := by omega
  have hga : s.nodes[a] = na := by
    have h := List.getElem?_eq_getElem hal
    rw [ha] at h
    exact (Option.some.inj h).symm
  simp [loadNode, updateNode, updateList, NewLinkedListNode, List.getElem?_set,
    List.getElem?_append_left, hal, hbl, ha, hb, hnext, hab, hne1, hne2, hne3, hne4, hne5, hobj, hga]

theorem getElem_of_getElem? {α : Type} {l : List α} {a : Nat} {y : α} (h : l[a]? = some y) :
    a < l.length := by
  by_contra hge
  rw [List.getElem?_eq_none (by omega)] at h
  exact absurd h (by simp)

theorem AddAt_splice {s : Store T} {list : Nat} (ps1 : List Nat) (a b : Nat)
    (ps2 : List Nat) (xs1 : List T) (xa xb : T) (xs2 : List T)
    (hlen : ps1.length = xs1.length)
    (h : Represents s list (ps1 ++ a :: b :: ps2) (xs1 ++ xa :: xb :: xs2)) (v : T) :
    ∃ s', AddAt s (some list) ((ps1.length : Int) + 1) v = .ok (true, s') ∧
      Represents s' list (ps1 ++ a :: s.nodes.length :: b :: ps2)
        (xs1 ++ xa :: v :: xb :: xs2) := by
  obtain ⟨hobj, hnd, hch⟩ := h
  have hlt := Seg_lt_length hch
  have hch0 := hch
  rw [Seg_append ps1 xs1 hlen] at hch
  obtain ⟨h1, h2⟩ := hch
  simp only [Seg] at h2
  obtain ⟨ha, hb, h2⟩ := h2
  simp only [firstOr] at h1 ha
  have hadv := advance_seg ps1 a (b :: ps2) _ none none hch0
  rw [firstOr_none] at hadv
  have hab : a ≠ b := by
    intro hab
    have h3 := (List.nodup_cons.1 (List.nodup_append.1 hnd).2.1).1
    exact h3 (by simp [hab])
  have hlena : (ps1 ++ a :: b :: ps2).length = ps1.length + ps2.length + 2 := by
    simp; omega
  have hexec := AddAt_exec (i := (ps1.length : Int) + 1) v hobj (by omega)
    (by rw [hlena]; push_cast; omega) (by omega) (by rw [hlena]; push_cast; omega)
    (by simpa using hadv) ha rfl hb hab
  have hnew : ∀ p ∈ ps1 ++ a :: b :: ps2, p ≠ s.nodes.length :=
    fun p hp => Nat.ne_of_lt (hlt p hp)
  have hnd1 := List.nodup_append.1 hnd
  have hnd2 := List.nodup_cons.1 hnd1.2.1
  have hnd3 := List.nodup_cons.1 hnd2.2
  refine ⟨_, hexec, ?_, ?_, ?_⟩
  · have hl := getElem_of_getElem? hobj
    simp only [List.getElem?_set_self hl, ← firstOr_none, ← lastOr_none, firstOr_append,
      lastOr_append, lastOr_cons, firstOr_cons, List.length_append, List.length_cons]
    push_cast
    simp only [add_assoc]
  · have e : ps1 ++ a :: s.nodes.length :: b :: ps2
        = (ps1 ++ [a]) ++ s.nodes.length :: (b :: ps2) := by simp
    rw [e, List.nodup_middle, List.nodup_cons]
    refine ⟨?_, by simpa using hnd⟩
    intro hmem
    exact hnew _ (by simpa using hmem) rfl
  · have hframe : ∀ (n0 n1 n2 n3 : LinkedListNode T) (p : Nat),
        p ∈ ps1 ++ a :: b :: ps2 → p ≠ a → p ≠ b →
        ((((s.nodes ++ [n0]).set b n1).set s.nodes.length n2).set a n3)[p]?
          = s.nodes[p]? := by
      intro n0 n1 n2 n3 p hp hpa hpb
      have h1 := hnew p hp
      have h2 := hlt p hp
      simp [List.getElem?_set, List.getElem?_append_left, h2, Ne.symm hpa, Ne.symm hpb,
        Ne.symm h1]
    have hal := hlt a (by simp)
    have hbl := hlt b (by simp)
    rw [Seg_append ps1 xs1 hlen]
    simp only [Seg, firstOr_cons]
    refine ⟨Seg_frame h1 ?_, ?_, ?_, ?_, Seg_frame h2 ?_⟩
    · intro p hp
      refine hframe _ _ _ _ p (by simp [hp]) ?_ ?_
      · rintro rfl; exact hnd1.2.2 hp (by simp)
      · rintro rfl; exact hnd1.2.2 hp (by simp)
    · have hal1 : a < s.nodes.length + 1 := by omega
      simp [List.getElem?_set, hal1]
    · have hne : ¬ a = s.nodes.length := by omega
      simp [List.getElem?_set, hne, hbl]
    · have hne : ¬ s.nodes.length = b := by omega
      have hab2 : ¬ a = b := hab
      simp [List.getElem?_set, List.getElem?_append_left, hne, hbl, hab2]
    · intro p hp
      refine hframe _ _ _ _ p (by simp [hp]) ?_ ?_
      · rintro rfl; exact hnd2.1 (by simp [hp])
      · rintro rfl; exact hnd3.1 hp

/-! ## Indexed access -/

theorem split_lists {α β : Type} {ps : List α} {xs : List β} (hlen : ps.length = xs.length)
    (j : Nat) (hj : j < ps.length) :
    ∃ ps1 c ps2 xs1 x xs2, ps = ps1 ++ c :: ps2 ∧ xs = xs1 ++ x :: xs2 ∧
      ps1.length = j ∧ xs1.length = j ∧ ps[j]? = some c ∧ xs[j]? = some x := by
  have hj2 : j < xs.length := by omega
  refine ⟨ps.take j, ps[j], ps.drop (j + 1), xs.take j, xs[j], xs.drop (j + 1), ?_, ?_, ?_, ?_,
    ?_, ?_⟩
  · rw [← List.drop_eq_getElem_cons hj, List.take_append_drop]
  · rw [← List.drop_eq_getElem_cons hj2, List.take_append_drop]
  · rw [List.length_take]; omega
  · rw [List.length_take]; omega
  · exact List.getElem?_eq_getElem hj
  · exact List.getElem?_eq_getElem hj2

theorem Get_exec [Inhabited T] {s : Store T} {list : Nat} {i n : Int} {hd tl : Option Nat}
    {c : Nat} {nc : LinkedListNode T}
    (hobj : s.lists[list]? = some ⟨hd, tl, n⟩) (hr0 : ¬ i < 0) (hrn : ¬ n ≤ i)
    (hadv : advance s hd i.toNat = .ok (some c)) (hc : s.nodes[c]? = some nc) :
    Get s (some list) i = .ok (nc.value, s) := by
  unfold Get
  simp only [hr0, if_false, loadList_of hobj, bind, Except.bind, pure, Except.pure, ge_iff_le,
    hrn, hadv, loadNode_of hc, beq_iff_eq]
  simp

theorem Seg_cell {nodes : List (LinkedListNode T)} {prev nxt : Option Nat}
    {ps1 : List Nat} {c : Nat} {ps2 : List Nat} {xs1 : List T} {x : T} {xs2 : List T}
    (hlen : ps1.length = xs1.length)
    (h : Seg nodes prev (ps1 ++ c :: ps2) (xs1 ++ x :: xs2) nxt) :
    nodes[c]? = some ⟨x, lastOr ps1 prev, firstOr ps2 nxt⟩ := by
  rw [Seg_append ps1 xs1 hlen] at h
  exact h.2.1

theorem Represents_length_eq {s : Store T} {list : Nat} {ps : List Nat} {xs : List T}
    (h : Represents s list ps xs) : ps.length = xs.length :=
  Seg_length_eq h.chain

theorem Get_of_represents [Inhabited T] {s : Store T} {list : Nat} {ps : List Nat}
    {xs : List T} (h : Represents s list ps xs) (j : Nat) (x : T) (hx : xs[j]? = some x) :
    Get s (some list) (j : Int) = .ok (x, s) := by
  have hj : j < ps.length := by
    rw [Represents_length_eq h]; exact getElem_of_getElem? hx
  obtain ⟨ps1, c, ps2, xs1, y, xs2, hps, hxs, hl1, hl2, -, hy⟩ := split_lists
    (Represents_length_eq h) j hj
  rw [hx] at hy
  cases hy
  have hch := h.chain
  have hobj := h.obj
  rw [hps, hxs] at hch
  have hadv := advance_seg ps1 c ps2 _ none none hch
  rw [firstOr_none, ← hps, hl1] at hadv
  have hc := Seg_cell (hl1.trans hl2.symm) hch
  exact Get_exec hobj (by omega) (by omega) (by simpa using hadv) hc

theorem Size_of_represents {s : Store T} {list : Nat} {ps : List Nat} {xs : List T}
    (h : Represents s list ps xs) : Size s (some list) = .ok ((xs.length : Int), s) := by
  simp [Size, loadList_of h.obj, bind, Except.bind, pure, Except.pure,
    Represents_length_eq h]

theorem getElem?_insert_lt {α : Type} (xs : List α) (i j : Nat) (v : α) (hj : j < i)
    (hi : i ≤ xs.length) : (xs.take i ++ v :: xs.drop i)[j]? = xs[j]? := by
  rw [List.getElem?_append_left (by rw [List.length_take]; omega), List.getElem?_take_of_lt hj]

theorem getElem?_insert_eq {α : Type} (xs : List α) (i : Nat) (v : α)
    (hi : i ≤ xs.length) : (xs.take i ++ v :: xs.drop i)[i]? = some v := by
  rw [List.getElem?_append_right (by rw [List.length_take]; omega)]
  simp [List.length_take, Nat.min_eq_left hi]

theorem getElem?_insert_gt {α : Type} (xs : List α) (i j : Nat) (v : α) (hj : i ≤ j)
    (hi : i ≤ xs.length) : (xs.take i ++ v :: xs.drop i)[j + 1]? = xs[j]? := by
  rw [List.getElem?_append_right (by rw [List.length_take]; omega)]
  have e : j + 1 - (List.take i xs).length = (j - i) + 1 := by
    rw [List.length_take]; omega
  rw [e, List.getElem?_cons_succ, List.getElem?_drop]
  congr 1; omega

/-! ## Removal -/

theorem getElem_eq_of_getElem? {α : Type} {l : List α} {a : Nat} {y : α} (h : l[a]? = some y)
    (hl : a < l.length) : l[a] = y := by
  have h2 := List.getElem?_eq_getElem hl
  rw [h] at h2
  exact (Option.some.inj h2).symm

theorem RemoveAt_exec [Inhabited T] {s : Store T} {list : Nat} {i n : Int}
    {hd tl : Option Nat} {a c b : Nat} {na nc nb : LinkedListNode T}
    (hobj : s.lists[list]? = some ⟨hd, tl, n⟩)
    (hn0 : ¬ n = 0) (hi0 : ¬ i = 0) (hin : ¬ i = n - 1) (hr0 : ¬ i < 0) (hrn : ¬ n ≤ i)
    (hadv : advance s hd i.toNat = .ok (some c))
    (hc : s.nodes[c]? = some nc) (hprev : nc.previous = some a) (hnext : nc.next = some b)
    (ha : s.nodes[a]? = some na) (hb : s.nodes[b]? = some nb)
    (hac : a ≠ c) (hbc : b ≠ c) (hab : a ≠ b) :
    RemoveAt s (some list) i = .ok (nc.value,
      { nodes := (s.nodes.set a { na with next := some b }).set b
            { nb with previous := some a },
        lists := s.lists.set list ⟨hd, tl, n - 1⟩ }) := by
  have hal := getElem_of_getElem? ha
  have hbl := getElem_of_getElem? hb
  have hcl := getElem_of_getElem? hc
  have hga := getElem_eq_of_getElem? ha hal
  have hgb := getElem_eq_of_getElem? hb hbl
  have hgc := getElem_eq_of_getElem? hc hcl
  unfold RemoveAt
  simp only [beq_iff_eq, hi0, hin, hn0, if_false, loadList_of hobj, bind, Except.bind, pure,
    Except.pure, Bool.or_eq_true, decide_eq_true_eq, hr0, hrn, or_self, ge_iff_le, hadv]
  have hne1 : ¬ c = a := fun h => hac h.symm
  have hne2 : ¬ c = b := fun h => hbc h.symm
  have hne3 : ¬ b = a := fun h => hab h.symm
  have hac2 : ¬ a = c := hac
  have hbc2 : ¬ b = c := hbc
  have hab2 : ¬ a = b := hab
  simp [loadNode, updateNode, updateList, List.getElem?_set, hal, hbl, hcl, ha, hb, hc,
    hnext, hprev, hne1, hne2, hne3, hac2, hbc2, hab2, hobj, hga, hgb, hgc]

theorem RemoveFront_exec [Inhabited T] {s : Store T} {list : Nat} {n : Int}
    {tl : Option Nat} {a b : Nat} {na nb : LinkedListNode T}
    (hobj : s.lists[list]? = some ⟨some a, tl, n⟩) (hn0 : ¬ n = 0)
    (ha : s.nodes[a]? = some na) (hnext : na.next = some b)
    (hb : s.nodes[b]? = some nb) (hab : a ≠ b) :
    RemoveFront s (some list) = .ok (na.value,
      { nodes := s.nodes.set b { nb with previous := none },
        lists := s.lists.set list ⟨some b, tl, n - 1⟩ }) := by
  have hal := getElem_of_getElem? ha
  have hbl := getElem_of_getElem? hb
  have hll := getElem_of_getElem? hobj
  have hga := getElem_eq_of_getElem? ha hal
  have hgb := getElem_eq_of_getElem? hb hbl
  have hne3 : ¬ b = a := fun h => hab h.symm
  have hab2 : ¬ a = b := hab
  unfold RemoveFront
  simp [loadNode, updateNode, updateList, loadList, List.getElem?_set, hal, hbl, ha, hb,
    hnext, hne3, hab2, hobj, hga, hgb, hn0, hll, bind, Except.bind, pure, Except.pure]

theorem RemoveAt_unlink [Inhabited T] {s : Store T} {list : Nat} (ps1 : List Nat)
    (a c b : Nat) (ps2 : List Nat) (xs1 : List T) (xa xc xb : T) (xs2 : List T)
    (hlen : ps1.length = xs1.length)
    (h : Represents s list (ps1 ++ a :: c :: b :: ps2) (xs1 ++ xa :: xc :: xb :: xs2)) :
    ∃ s', RemoveAt s (some list) ((ps1.length : Int) + 1) = .ok (xc, s') ∧
      Represents s' list (ps1 ++ a :: b :: ps2) (xs1 ++ xa :: xb :: xs2) := by
  obtain ⟨hobj, hnd, hch⟩ := h
  have hlt := Seg_lt_length hch
  have hch0 := hch
  rw [Seg_append ps1 xs1 hlen] at hch
  obtain ⟨h1, h2⟩ := hch
  simp only [Seg] at h2
  obtain ⟨ha, hc, hb, h2⟩ := h2
  simp only [firstOr_cons] at h1 ha hc
  have hadv : advance s (ps1 ++ a :: c :: b :: ps2).head? (ps1.length + 1)
      = .ok (some c) := by
    have e : ps1 ++ a :: c :: b :: ps2 = (ps1 ++ [a]) ++ c :: b :: ps2 := by simp
    rw [e] at hch0
    have := advance_seg (ps1 ++ [a]) c (b :: ps2) _ none none hch0
    rw [firstOr_none] at this
    simpa using this
  have hnd1 := List.nodup_append.1 hnd
  have hnd2 := List.nodup_cons.1 hnd1.2.1
  have hnd3 := List.nodup_cons.1 hnd2.2
  have hnd4 := List.nodup_cons.1 hnd3.2
  have hac : a ≠ c := fun e => hnd2.1 (by simp [e])
  have hab : a ≠ b := fun e => hnd2.1 (by simp [e])
  have hbc : b ≠ c := fun e => hnd3.1 (by simp [e])
  have hlena : (ps1 ++ a :: c :: b :: ps2).length = ps1.length + ps2.length + 3 := by
    simp; omega
  have hexec := RemoveAt_exec (i := (ps1.length : Int) + 1) hobj
    (by rw [hlena]; push_cast; omega) (by omega) (by rw [hlena]; push_cast; omega)
    (by omega) (by rw [hlena]; push_cast; omega)
    (by simpa using hadv) hc rfl rfl ha hb hac hbc hab
  refine ⟨_, hexec, ?_, ?_, ?_⟩
  · have hl := getElem_of_getElem? hobj
    simp only [List.getElem?_set_self hl, ← firstOr_none, ← lastOr_none, firstOr_append,
      lastOr_append, lastOr_cons, firstOr_cons, List.length_append, List.length_cons]
    push_cast
    simp only [LinkedList.mk.injEq, true_and, Option.some.injEq]
    omega
  · have e : ps1 ++ a :: c :: b :: ps2 = (ps1 ++ [a]) ++ c :: (b :: ps2) := by simp
    rw [e, List.nodup_middle, List.nodup_cons] at hnd
    simpa using hnd.2
  · have hframe : ∀ (n1 n2 : LinkedListNode T) (p : Nat), p ≠ a → p ≠ b →
        ((s.nodes.set a n1).set b n2)[p]? = s.nodes[p]? := by
      intro n1 n2 p hpa hpb
      simp [List.getElem?_set, Ne.symm hpa, Ne.symm hpb]
    have hal := hlt a (by simp)
    have hbl := hlt b (by simp)
    rw [Seg_append ps1 xs1 hlen]
    simp only [Seg, firstOr_cons]
    refine ⟨Seg_frame h1 ?_, ?_, ?_, Seg_frame h2 ?_⟩
    · intro p hp
      refine hframe _ _ p ?_ ?_
      · rintro rfl; exact hnd1.2.2 hp (by simp)
      · rintro rfl; exact hnd1.2.2 hp (by simp)
    · have hab2 : ¬ b = a := fun e => hab e.symm
      simp [List.getElem?_set, hal, hab2]
    · simp [List.getElem?_set, hbl]
    · intro p hp
      refine hframe _ _ p ?_ ?_
      · rintro rfl; exact hnd2.1 (by simp [hp])
      · rintro rfl; exact hnd4.1 hp

theorem RemoveFront_unlink [Inhabited T] {s : Store T} {list : Nat} (a b : Nat)
    (ps2 : List Nat) (xa xb : T) (xs2 : List T)
    (h : Represents s list (a :: b :: ps2) (xa :: xb :: xs2)) :
    ∃ s', RemoveFront s (some list) = .ok (xa, s') ∧
      Represents s' list (b :: ps2) (xb :: xs2) := by
  obtain ⟨hobj, hnd, hch⟩ := h
  have hlt := Seg_lt_length hch
  simp only [Seg, firstOr_cons] at hch
  obtain ⟨ha, hb, h2⟩ := hch
  have hnd2 := List.nodup_cons.1 hnd
  have hnd3 := List.nodup_cons.1 hnd2.2
  have hab : a ≠ b := fun e => hnd2.1 (by simp [e])
  have hexec := RemoveFront_exec hobj (by simp; omega) ha rfl hb hab
  simp only [List.head?_cons] at hobj
  refine ⟨_, hexec, ?_, hnd2.2, ?_⟩
  · have hl := getElem_of_getElem? hobj
    simp only [List.getElem?_set_self hl, List.head?_cons, List.getLast?_cons_cons,
      List.length_cons]
    push_cast
    simp
  · have hbl := hlt b (by simp)
    simp only [Seg]
    refine ⟨by simp [List.getElem?_set, hbl], Seg_frame h2 ?_⟩
    intro p hp
    have hpb : ¬ b = p := by rintro rfl; exact hnd3.1 hp
    simp [List.getElem?_set, hpb]

/-! ## Search -/

theorem IndexOf_loop_seg (sprint : T → String) {s : Store T} (v : T) (ps : List Nat)
    (xs : List T) (p : Nat) (x : T) (prev : Option Nat) (fuel : Nat) (k : Int)
    (h : Seg s.nodes prev (p :: ps) (x :: xs) none) (hfuel : ps.length + 1 ≤ fuel) :
    IndexOf.loop sprint s v fuel (some p) k = .ok (firstMatch sprint v (x :: xs) k) := by
  induction ps generalizing p x xs prev fuel k with
  | nil =>
    cases xs with
    | cons y ys => simp [Seg] at h
    | nil =>
      obtain ⟨fuel, rfl⟩ : ∃ f, fuel = f + 1 := ⟨fuel - 1, by simp at hfuel; omega⟩
      simp only [Seg, firstOr] at h
      simp only [IndexOf.loop, loadNode_of h.1, bind, Except.bind, firstMatch]
      cases DefaultEquals sprint x v <;> simp [pure, Except.pure]
  | cons q ps ih =>
    cases xs with
    | nil => simp [Seg] at h
    | cons y ys =>
      obtain ⟨fuel, rfl⟩ : ∃ f, fuel = f + 1 := ⟨fuel - 1, by simp at hfuel; omega⟩
      simp only [Seg, firstOr_cons] at h
      have hrec := ih ys q y (some p) fuel (k + 1) (by simpa [Seg] using h.2)
        (by simp at hfuel; omega)
      rw [firstMatch]
      simp only [IndexOf.loop, loadNode_of h.1, bind, Except.bind]
      cases DefaultEquals sprint x v
      · simpa [pure, Except.pure] using hrec
      · simp [pure, Except.pure]

theorem IndexOf_of_represents (sprint : T → String) {s : Store T} {list : Nat}
    {ps : List Nat} {xs : List T} (h : Represents s list ps xs) (fuel : Nat)
    (hfuel : xs.length ≤ fuel) (v : T) :
    IndexOf sprint fuel s (some list) v = .ok (firstMatch sprint v xs 0, s) := by
  have hlen := Represents_length_eq h
  obtain ⟨hobj, -, hch⟩ := h
  cases ps with
  | nil =>
    cases xs with
    | cons y ys => simp at hlen
    | nil => simp [IndexOf, loadList_of hobj, bind, Except.bind, pure, Except.pure, firstMatch]
  | cons p ps =>
    cases xs with
    | nil => simp at hlen
    | cons x xs =>
      have hloop := IndexOf_loop_seg sprint v ps xs p x none fuel 0 hch
        (by simp at hlen hfuel; omega)
      have hsz : ¬ (((p :: ps).length : Int) = 0) := by simp; omega
      simp only [IndexOf, loadList_of hobj, bind, Except.bind, pure, Except.pure, beq_iff_eq,
        hsz, if_false, List.head?_cons, hloop]

theorem firstMatch_spec (sprint : T → String) (v : T) (xs : List T) (k : Int) :
    (firstMatch sprint v xs k = -1 ∧ ∀ x ∈ xs, DefaultEquals sprint x v = false) ∨
    (∃ j : Nat, firstMatch sprint v xs k = k + j ∧ j < xs.length ∧
      (∃ x, xs[j]? = some x ∧ DefaultEquals sprint x v = true) ∧
      ∀ i : Nat, i < j → ∃ y, xs[i]? = some y ∧ DefaultEquals sprint y v = false) := by
  induction xs generalizing k with
  | nil => left; simp [firstMatch]
  | cons x xs ih =>
    rw [firstMatch]
    cases hx : DefaultEquals sprint x v
    · rcases ih (k + 1) with ⟨h1, h2⟩ | ⟨j, h1, h2, ⟨y, hy1, hy2⟩, h4⟩
      · left
        refine ⟨by simpa using h1, ?_⟩
        intro y hy
        rcases List.mem_cons.1 hy with rfl | hy
        · exact hx
        · exact h2 y hy
      · right
        refine ⟨j + 1, ?_, by simpa using h2, ⟨y, by simpa using hy1, hy2⟩, ?_⟩
        · simp only [Bool.false_eq_true, if_false, h1]; push_cast; ring
        · intro i hi
          cases i with
          | zero => exact ⟨x, by simp, hx⟩
          | succ i =>
            obtain ⟨z, hz1, hz2⟩ := h4 i (by omega)
            exact ⟨z, by simpa using hz1, hz2⟩
    · right
      exact ⟨0, by simp, by simp, ⟨x, by simp, hx⟩, by intro i hi; omega⟩

/-! ## Operations on a list of size 0 -/

theorem getElem?_append_of_some {α : Type} (l r : List α) {a : Nat} {y : α}
    (h : l[a]? = some y) : (l ++ r)[a]? = some y := by
  rw [List.getElem?_append_left (getElem_of_getElem? h)]; exact h

theorem AddBack_size_zero {s : Store T} {list : Nat} {l : LinkedList}
    (hobj : s.lists[list]? = some l) (hsz : l.size = 0) (v : T) :
    AddBack s (some list) v = .ok (true,
      { nodes := s.nodes ++ [⟨v, none, none⟩],
        lists := s.lists ++ [⟨some s.nodes.length, some s.nodes.length, 1⟩] }) := by
  simp [AddBack, NewLinkedListNode, allocList, loadList, hobj, hsz, bind, Except.bind, pure,
    Except.pure]

theorem AddFront_size_zero {s : Store T} {list : Nat} {l : LinkedList}
    (hobj : s.lists[list]? = some l) (hsz : l.size = 0) (v : T) :
    AddFront s (some list) v = .ok (true,
      { nodes := s.nodes ++ [⟨v, none, none⟩],
        lists := s.lists ++ [⟨some s.nodes.length, some s.nodes.length, 1⟩] }) := by
  simp [AddFront, NewLinkedListNode, allocList, loadList, hobj, hsz, bind, Except.bind, pure,
    Except.pure]

theorem FromArray_size_zero {s : Store T} {list : Nat} {l : LinkedList}
    (hobj : s.lists[list]? = some l) (hsz : l.size = 0) (items : List T) :
    ∃ s', FromArray s (some list) items = .ok (some list, s') ∧
      s'.lists[list]? = some l := by
  induction items generalizing s with
  | nil => exact ⟨s, rfl, hobj⟩
  | cons a items ih =>
    simp only [FromArray, AddBack_size_zero hobj hsz, bind, Except.bind]
    exact ih (getElem?_append_of_some _ _ hobj)

theorem Get_size_zero [Inhabited T] {s : Store T} {list : Nat} {l : LinkedList}
    (hobj : s.lists[list]? = some l) (hsz : l.size = 0) (i : Int) :
    Get s (some list) i = .ok (default, s) := by
  by_cases hi : i < 0
  · simp [Get, hi, pure, Except.pure]
  · have : l.size ≤ i := by omega
    simp [Get, hi, loadList_of hobj, bind, Except.bind, pure, Except.pure, this]

theorem Size_obj {s : Store T} {list : Nat} {l : LinkedList} (hobj : s.lists[list]? = some l) :
    Size s (some list) = .ok (l.size, s) := by
  simp [Size, loadList_of hobj, bind, Except.bind, pure, Except.pure]

theorem NewLinkedList_obj (s : Store T) :
    (NewLinkedList s).1 = some s.lists.length ∧
      (NewLinkedList s).2.lists[s.lists.length]? = some ⟨none, none, 0⟩ := by
  simp [NewLinkedList, allocList]

/-! ## Both ends of a well-formed list -/

theorem Represents_last_cell {s : Store T} {list : Nat} {ps : List Nat} {xs : List T}
    (h : Represents s list ps xs) (hne : xs ≠ []) :
    ∃ c x prev, ps.getLast? = some c ∧ xs.getLast? = some x ∧
      xs[xs.length - 1]? = some x ∧ s.nodes[c]? = some ⟨x, prev, none⟩ := by
  have hlen := Represents_length_eq h
  rcases List.eq_nil_or_concat xs with hx | ⟨xs1, x, hx⟩
  · exact absurd hx hne
  rcases List.eq_nil_or_concat ps with hp | ⟨ps1, c, hp⟩
  · subst hp; subst hx; simp at hlen
  rw [List.concat_eq_append] at hp hx
  subst hp; subst hx
  have hl1 : ps1.length = xs1.length := by simpa using hlen
  have hc := Seg_cell hl1 h.chain
  exact ⟨c, x, _, by simp, by simp, by simp, hc⟩

theorem Represents_first_cell {s : Store T} {list : Nat} {ps : List Nat} {xs : List T}
    (h : Represents s list ps xs) (hne : xs ≠ []) :
    ∃ a x nxt, ps.head? = some a ∧ xs.head? = some x ∧ xs[0]? = some x ∧
      s.nodes[a]? = some ⟨x, none, nxt⟩ := by
  have hch := h.chain
  cases ps with
  | nil => cases xs with
    | nil => exact absurd rfl hne
    | cons x xs => simp [Seg] at hch
  | cons a ps => cases xs with
    | nil => simp [Seg] at hch
    | cons x xs =>
      simp only [Seg] at hch
      exact ⟨a, x, _, rfl, rfl, by simp, hch.1⟩

theorem PeekFront_exec [Inhabited T] {s : Store T} {list : Nat} {n : Int}
    {tl : Option Nat} {a : Nat} {na : LinkedListNode T}
    (hobj : s.lists[list]? = some ⟨some a, tl, n⟩) (hn0 : ¬ n = 0)
    (ha : s.nodes[a]? = some na) :
    PeekFront s (some list) = .ok (na.value, s) := by
  simp [PeekFront, loadList_of hobj, loadNode_of ha, hn0, bind, Except.bind, pure, Except.pure]

theorem PeekBack_exec [Inhabited T] {s : Store T} {list : Nat} {n : Int}
    {hd : Option Nat} {c : Nat} {nc : LinkedListNode T}
    (hobj : s.lists[list]? = some ⟨hd, some c, n⟩) (hn0 : ¬ n = 0)
    (hc : s.nodes[c]? = some nc) :
    PeekBack s (some list) = .ok (nc.value, s) := by
  simp [PeekBack, loadList_of hobj, loadNode_of hc, hn0, bind, Except.bind, pure, Except.pure]

theorem RemoveBack_exec [Inhabited T] {s : Store T} {list : Nat} {n : Int}
    {hd : Option Nat} {c : Nat} {nc : LinkedListNode T}
    (hobj : s.lists[list]? = some ⟨hd, some c, n⟩) (hn0 : ¬ n = 0)
    (hc : s.nodes[c]? = some nc) (hnext : nc.next = none) :
    RemoveBack s (some list) = .ok (nc.value, s) := by
  simp [RemoveBack, loadList_of hobj, loadNode_of hc, hn0, hnext, bind, Except.bind, pure,
    Except.pure]

theorem RemoveFront_exec_single [Inhabited T] {s : Store T} {list : Nat} {n : Int}
    {tl : Option Nat} {a : Nat} {na : LinkedListNode T}
    (hobj : s.lists[list]? = some ⟨some a, tl, n⟩) (hn0 : ¬ n = 0)
    (ha : s.nodes[a]? = some na) (hnext : na.next = none) :
    RemoveFront s (some list) = .ok (na.value, s) := by
  simp [RemoveFront, loadList_of hobj, loadNode_of ha, hn0, hnext, bind, Except.bind, pure,
    Except.pure]

theorem Represents_size_ne_zero {s : Store T} {list : Nat} {ps : List Nat} {xs : List T}
    (h : Represents s list ps xs) (hne : xs ≠ []) : ¬ ((ps.length : Int) = 0) := by
  have hlen := Represents_length_eq h
  cases xs with
  | nil => exact absurd rfl hne
  | cons x xs => simp at hlen; omega

theorem eraseIdx_middle {α : Type} (l1 : List α) (c : α) (l2 : List α) :
    (l1 ++ c :: l2).eraseIdx l1.length = l1 ++ l2 := by
  induction l1 with
  | nil => rfl
  | cons a l1 ih => simp [List.eraseIdx, ih]

theorem AddBack_exec {s : Store T} {list : Nat} {n : Int} {hd : Option Nat} {c : Nat}
    {nc : LinkedListNode T} (v : T)
    (hobj : s.lists[list]? = some ⟨hd, some c, n⟩) (hn0 : ¬ n = 0)
    (hc : s.nodes[c]? = some nc) :
    AddBack s (some list) v = .ok (true,
      { nodes := ((s.nodes ++ [(⟨v, none, none⟩ : LinkedListNode T)]).set c
            { nc with next := some s.nodes.length }).set s.nodes.length ⟨v, some c, none⟩,
        lists := s.lists.set list ⟨hd, some s.nodes.length, n + 1⟩ }) := by
  have hcl := getElem_of_getElem? hc
  have hll := getElem_of_getElem? hobj
  have hgc := getElem_eq_of_getElem? hc hcl
  have hne1 : ¬ c = s.nodes.length := by omega
  have hne2 : ¬ s.nodes.length = c := by omega
  unfold AddBack
  simp [loadNode, updateNode, updateList, loadList, NewLinkedListNode, List.getElem?_set,
    List.getElem?_append_left, hcl, hc, hobj, hgc, hn0, hll, hne1, hne2, bind, Except.bind,
    pure, Except.pure]

theorem AddBack_append {s : Store T} {list : Nat} {ps : List Nat} {xs : List T}
    (h : Represents s list ps xs) (hne : xs ≠ []) (v : T) :
    ∃ s', AddBack s (some list) v = .ok (true, s') ∧
      Represents s' list (ps ++ [s.nodes.length]) (xs ++ [v]) ∧
      s'.nodes.length = s.nodes.length + 1 := by
  have hlen := Represents_length_eq h
  have hn0 := Represents_size_ne_zero h hne
  obtain ⟨hobj, hnd, hch⟩ := h
  have hlt := Seg_lt_length hch
  rcases List.eq_nil_or_concat xs with hx | ⟨xs1, x, hx⟩
  · exact absurd hx hne
  rcases List.eq_nil_or_concat ps with hp | ⟨ps1, c, hp⟩
  · subst hp; subst hx; simp at hlen
  rw [List.concat_eq_append] at hp hx
  subst hp; subst hx
  have hl1 : ps1.length = xs1.length := by simpa using hlen
  have hc := Seg_cell hl1 hch
  rw [Seg_append ps1 xs1 hl1] at hch
  have h1 := hch.1
  simp only [firstOr] at hc h1
  have hobj' := hobj
  simp only [← lastOr_none, lastOr_append, lastOr_cons] at hobj'
  simp only [lastOr] at hobj'
  have hexec := AddBack_exec v hobj' hn0 hc
  have hcl := hlt c (by simp)
  have hnd1 := List.nodup_append.1 hnd
  refine ⟨_, hexec, ⟨?_, ?_, ?_⟩, by simp⟩
  · have hl := getElem_of_getElem? hobj
    simp only [List.getElem?_set_self hl, ← firstOr_none, ← lastOr_none, firstOr_append,
      lastOr_append, lastOr_cons, firstOr_cons, List.length_append, List.length_cons,
      List.length_nil]
    push_cast
    simp [lastOr, firstOr]
  · rw [List.nodup_append]
    refine ⟨hnd, by simp, ?_⟩
    intro p hp hq
    simp only [List.mem_singleton] at hq
    exact Nat.ne_of_lt (hlt p hp) hq
  · rw [List.append_assoc, List.append_assoc, Seg_append ps1 xs1 hl1]
    simp only [List.singleton_append, Seg, firstOr_cons]
    refine ⟨Seg_frame h1 ?_, ?_, ?_, trivial⟩
    · intro p hp
      have hpc : ¬ c = p := by rintro rfl; exact hnd1.2.2 hp (by simp)
      have hpl : p < s.nodes.length := hlt p (by simp [hp])
      have hpn : ¬ s.nodes.length = p := by omega
      simp [List.getElem?_set, List.getElem?_append_left, hpc, hpl, hpn]
    · have hne2 : ¬ s.nodes.length = c := by omega
      simp [List.getElem?_set, List.getElem?_append_left, hcl, hne2, firstOr]
    · simp [List.getElem?_set, firstOr]

theorem AddAt_at_size_unfold {s s1 : Store T} {list : Nat} {l l1 : LinkedList} (v : T)
    (hobj : s.lists[list]? = some l) (hn0 : ¬ l.size = 0)
    (hback : AddBack s (some list) v = .ok (true, s1))
    (hobj1 : s1.lists[list]? = some l1) (hsz : ¬ l.size = l1.size) :
    AddAt s (some list) l.size v = AddAt s1 (some list) l.size v := by
  unfold AddAt
  simp [hn0, hsz, loadList_of hobj, loadList_of hobj1, hback, bind, Except.bind, pure,
    Except.pure]

theorem Seg_previous_mem {nodes : List (LinkedListNode T)} {prev nxt : Option Nat}
    {ps : List Nat} {xs : List T} (h : Seg nodes prev ps xs nxt) :
    ∀ q ∈ ps, ∃ n, nodes[q]? = some n ∧ (n.previous = prev ∨ ∃ r ∈ ps, n.previous = some r) := by
  induction ps generalizing prev xs with
  | nil => simp
  | cons p ps ih =>
    cases xs with
    | nil => simp [Seg] at h
    | cons x xs =>
      simp only [Seg] at h
      intro q hq
      rcases List.mem_cons.1 hq with rfl | hq
      · exact ⟨_, h.1, Or.inl rfl⟩
      · obtain ⟨n, hn, hor⟩ := ih h.2 q hq
        refine ⟨n, hn, Or.inr ?_⟩
        rcases hor with hp | ⟨r, hr, hp⟩
        · exact ⟨p, by simp, hp⟩
        · exact ⟨r, by simp [hr], hp⟩

theorem Seg_nodup {nodes : List (LinkedListNode T)} {prev nxt : Option Nat}
    {ps : List Nat} {xs : List T} (h : Seg nodes prev ps xs nxt)
    (hprev : ∀ q, prev = some q → q ∉ ps) : ps.Nodup := by
  induction ps generalizing prev xs with
  | nil => simp
  | cons p ps ih =>
    cases xs with
    | nil => simp [Seg] at h
    | cons x xs =>
      simp only [Seg] at h
      have hp : p ∉ ps := by
        intro hmem
        obtain ⟨n, hn, hor⟩ := Seg_previous_mem h.2 p hmem
        rw [h.1] at hn
        cases hn
        rcases hor with hp | ⟨r, hr, hp⟩
        · exact hprev p hp (by simp)
        · exact hprev r hp (by simp [hr])
      refine List.nodup_cons.2 ⟨hp, ih h.2 ?_⟩
      intro q hq
      cases hq
      exact hp

theorem Represents_of_chain {s : Store T} {list : Nat} {ps : List Nat} {xs : List T}
    (hobj : s.lists[list]? = some ⟨ps.head?, ps.getLast?, ps.length⟩)
    (hch : Seg s.nodes none ps xs none) : Represents s list ps xs :=
  ⟨hobj, Seg_nodup hch (by simp), hch⟩

theorem FromArray_append {s : Store T} {list : Nat} {ps : List Nat} {xs : List T}
    (h : Represents s list ps xs) (hne : xs ≠ []) (items : List T) :
    ∃ s', FromArray s (some list) items = .ok (some list, s') ∧
      Represents s' list (ps ++ List.range' s.nodes.length items.length) (xs ++ items) := by
  induction items generalizing s ps xs with
  | nil => exact ⟨s, rfl, by simpa using h⟩
  | cons a items ih =>
    obtain ⟨s1, hback, hrep1, hlen1⟩ := AddBack_append h hne a
    obtain ⟨s', hrun, hrep'⟩ := ih hrep1 (by simp)
    refine ⟨s', ?_, ?_⟩
    · simp only [FromArray, hback, bind, Except.bind]
      exact hrun
    · rw [hlen1] at hrep'
      simpa [List.range'] using hrep'

/-! ## Insertion at the front of a non-empty list -/

theorem AddFront_exec {s : Store T} {list : Nat} {n : Int} {tl : Option Nat} {a : Nat}
    {na : LinkedListNode T} (v : T)
    (hobj : s.lists[list]? = some ⟨some a, tl, n⟩) (hn0 : ¬ n = 0)
    (ha : s.nodes[a]? = some na) :
    AddFront s (some list) v = .ok (true,
      { nodes := ((s.nodes ++ [(⟨v, none, none⟩ : LinkedListNode T)]).set a
            { na with previous := some s.nodes.length }).set s.nodes.length ⟨v, none, some a⟩,
        lists := s.lists.set list ⟨some s.nodes.length, tl, n + 1⟩ }) := by
  have hal := getElem_of_getElem? ha
  have hll := getElem_of_getElem? hobj
  have hga := getElem_eq_of_getElem? ha hal
  have hne1 : ¬ a = s.nodes.length := by omega
  have hne2 : ¬ s.nodes.length = a := by omega
  unfold AddFront
  simp [loadNode, updateNode, updateList, loadList, NewLinkedListNode, List.getElem?_set,
    List.getElem?_append_left, hal, ha, hobj, hga, hn0, hll, hne1, hne2, bind, Except.bind,
    pure, Except.pure]

theorem AddFront_prepend {s : Store T} {list : Nat} {ps : List Nat} {xs : List T}
    (h : Represents s list ps xs) (hne : xs ≠ []) (v : T) :
    ∃ s', AddFront s (some list) v = .ok (true, s') ∧
      Represents s' list (s.nodes.length :: ps) (v :: xs) := by
  have hlen := Represents_length_eq h
  have hn0 := Represents_size_ne_zero h hne
  obtain ⟨hobj, hnd, hch⟩ := h
  have hlt := Seg_lt_length hch
  obtain ⟨x, xs2, rfl⟩ : ∃ x xs2, xs = x :: xs2 := by
    cases xs with
    | nil => exact absurd rfl hne
    | cons x xs2 => exact ⟨x, xs2, rfl⟩
  obtain ⟨a, ps2, rfl⟩ : ∃ a ps2, ps = a :: ps2 := by
    cases ps with
    | nil => simp at hlen
    | cons a ps2 => exact ⟨a, ps2, rfl⟩
  simp only [Seg] at hch
  obtain ⟨ha, h2⟩ := hch
  have hobj' := hobj
  simp only [List.head?_cons] at hobj'
  have hexec := AddFront_exec v hobj' hn0 ha
  have hal := hlt a (by simp)
  have hnd2 := List.nodup_cons.1 hnd
  refine ⟨_, hexec, ⟨?_, ?_, ?_⟩⟩
  · have hl := getElem_of_getElem? hobj
    simp only [List.getElem?_set_self hl, List.head?_cons, List.getLast?_cons_cons,
      List.length_cons]
    push_cast
    rfl
  · refine List.nodup_cons.2 ⟨?_, hnd⟩
    intro hmem
    exact Nat.lt_irrefl _ (hlt _ hmem)
  · simp only [Seg, firstOr_cons]
    refine ⟨by simp [List.getElem?_set], ?_, Seg_frame h2 ?_⟩
    · have hne2 : ¬ s.nodes.length = a := by omega
      simp [List.getElem?_set, List.getElem?_append_left, hal, hne2]
    · intro p hp
      have hpa : ¬ a = p := by rintro rfl; exact hnd2.1 hp
      have hpl : p < s.nodes.length := hlt p (by simp [hp])
      have hpn : ¬ s.nodes.length = p := by omega
      simp [List.getElem?_set, List.getElem?_append_left, hpa, hpl, hpn]

/-! ## Every method on a well-formed list -/

theorem Represents_nil_iff {s : Store T} {list : Nat} :
    Represents s list [] ([] : List T) ↔ s.lists[list]? = some ⟨none, none, 0⟩ := by
  constructor
  · intro h; simpa using h.obj
  · intro h; exact ⟨by simpa using h, List.nodup_nil, trivial⟩

theorem Represents_nil_of {s : Store T} {list : Nat} {ps : List Nat} {xs : List T}
    (h : Represents s list ps xs) (hx : xs = []) : ps = [] := by
  have hlen := Represents_length_eq h
  subst hx
  exact List.length_eq_zero.1 (by simpa using hlen)

theorem AddFront_total {s : Store T} {list : Nat} {ps : List Nat} {xs : List T}
    (h : Represents s list ps xs) (v : T) :
    ∃ s' ps' xs', AddFront s (some list) v = .ok (true, s') ∧ Represents s' list ps' xs' := by
  by_cases hx : xs = []
  · have hp := Represents_nil_of h hx
    subst hx; subst hp
    have hobj := Represents_nil_iff.1 h
    refine ⟨_, [], [], AddFront_size_zero hobj rfl v, Represents_nil_iff.2 ?_⟩
    exact getElem?_append_of_some _ _ hobj
  · obtain ⟨s', h1, h2⟩ := AddFront_prepend h hx v
    exact ⟨s', _, _, h1, h2⟩

theorem AddBack_total {s : Store T} {list : Nat} {ps : List Nat} {xs : List T}
    (h : Represents s list ps xs) (v : T) :
    ∃ s' ps' xs', AddBack s (some list) v = .ok (true, s') ∧ Represents s' list ps' xs' := by
  by_cases hx : xs = []
  · have hp := Represents_nil_of h hx
    subst hx; subst hp
    have hobj := Represents_nil_iff.1 h
    refine ⟨_, [], [], AddBack_size_zero hobj rfl v, Represents_nil_iff.2 ?_⟩
    exact getElem?_append_of_some _ _ hobj
  · obtain ⟨s', h1, h2, -⟩ := AddBack_append h hx v
    exact ⟨s', _, _, h1, h2⟩

theorem FromArray_total {s : Store T} {list : Nat} {ps : List Nat} {xs : List T}
    (h : Represents s list ps xs) (items : List T) :
    ∃ s' ps' xs', FromArray s (some list) items = .ok (some list, s') ∧
      Represents s' list ps' xs' := by
  by_cases hx : xs = []
  · have hp := Represents_nil_of h hx
    subst hx; subst hp
    have hobj := Represents_nil_iff.1 h
    obtain ⟨s', h1, h2⟩ := FromArray_size_zero hobj rfl items
    exact ⟨s', [], [], h1, Represents_nil_iff.2 h2⟩
  · obtain ⟨s', h1, h2⟩ := FromArray_append h hx items
    exact ⟨s', _, _, h1, h2⟩

theorem AddAt_zero (s : Store T) (list : Option Nat) (v : T) :
    AddAt s list 0 v = AddFront s list v := by
  simp [AddAt]

theorem AddAt_out_of_range {s : Store T} {list : Nat} {l : LinkedList} {i : Int} (v : T)
    (hobj : s.lists[list]? = some l) (hi0 : ¬ i = 0) (hin : ¬ i = l.size)
    (hr : i < 0 ∨ l.size ≤ i) : AddAt s (some list) i v = .ok (false, s) := by
  unfold AddAt
  simp [hi0, hin, loadList_of hobj, bind, Except.bind, pure, Except.pure, hr]

theorem AddAt_interior_repr {s : Store T} {list : Nat} {ps : List Nat} {xs : List T}
    (h : Represents s list ps xs) (i : Nat) (h0 : 0 < i) (hi : i < xs.length) (v : T) :
    ∃ s', AddAt s (some list) (i : Int) v = .ok (true, s') ∧
      Represents s' list (ps.take i ++ s.nodes.length :: ps.drop i)
        (xs.take i ++ v :: xs.drop i) := by
  have hlen := Represents_length_eq h
  obtain ⟨ps1, a, r, xs1, xa, xr, hps, hxs, hl1, hl2, -, -⟩ :=
    split_lists hlen (i - 1) (by omega)
  have hr : r.length = xr.length := by
    have := congrArg List.length hps
    have := congrArg List.length hxs
    simp at *
    omega
  have hrpos : 0 < r.length := by
    have := congrArg List.length hps
    simp at this
    omega
  obtain ⟨b, ps2, rfl⟩ : ∃ b ps2, r = b :: ps2 := by
    cases r with
    | nil => simp at hrpos
    | cons b ps2 => exact ⟨b, ps2, rfl⟩
  obtain ⟨xb, xs2, rfl⟩ : ∃ xb xs2, xr = xb :: xs2 := by
    cases xr with
    | nil => simp at hr
    | cons xb xs2 => exact ⟨xb, xs2, rfl⟩
  have htake : ps.take i = ps1 ++ [a] ∧ ps.drop i = b :: ps2 := by
    have e : ps = (ps1 ++ [a]) ++ b :: ps2 := by simp [hps]
    have el : (ps1 ++ [a]).length = i := by simp; omega
    constructor
    · rw [e, ← el, List.take_left]
    · rw [e, ← el, List.drop_left]
  have htakex : xs.take i = xs1 ++ [xa] ∧ xs.drop i = xb :: xs2 := by
    have e : xs = (xs1 ++ [xa]) ++ xb :: xs2 := by simp [hxs]
    have el : (xs1 ++ [xa]).length = i := by simp; omega
    constructor
    · rw [e, ← el, List.take_left]
    · rw [e, ← el, List.drop_left]
  have h' := h
  rw [hps, hxs] at h'
  obtain ⟨s', hexec, hrep⟩ := AddAt_splice ps1 a b ps2 xs1 xa xb xs2 (hl1.trans hl2.symm) h' v
  have hidx : ((ps1.length : Int) + 1) = (i : Int) := by omega
  rw [hidx] at hexec
  refine ⟨s', hexec, ?_⟩
  rw [htake.1, htake.2, htakex.1, htakex.2]
  simpa using hrep

theorem AddAt_at_size_double {s : Store T} {list : Nat} {ps : List Nat} {xs : List T}
    (h : Represents s list ps xs) (hne : xs ≠ []) (v : T) :
    ∃ s2, AddAt s (some list) (xs.length : Int) v = .ok (true, s2) ∧
      Represents s2 list (ps ++ [s.nodes.length + 1, s.nodes.length]) (xs ++ [v, v]) := by
  have hlen := Represents_length_eq h
  have hn0 := Represents_size_ne_zero h hne
  obtain ⟨s1, hback, hrep1, hlen1⟩ := AddBack_append h hne v
  have hunf := AddAt_at_size_unfold v h.obj hn0 hback hrep1.obj (by simp)
  simp only [hlen] at hunf
  rcases List.eq_nil_or_concat xs with hx | ⟨xs1, x, hx⟩
  · exact absurd hx hne
  rcases List.eq_nil_or_concat ps with hp | ⟨ps1, c, hp⟩
  · subst hp; subst hx; simp at hlen
  rw [List.concat_eq_append] at hp hx
  subst hp; subst hx
  have hl1 : ps1.length = xs1.length := by simpa using hlen
  have hrep1' : Represents s1 list (ps1 ++ c :: s.nodes.length :: [])
      (xs1 ++ x :: v :: []) := by simpa using hrep1
  obtain ⟨s2, hexec, hrep2⟩ := AddAt_splice ps1 c s.nodes.length [] xs1 x v [] hl1 hrep1' v
  have hidx : ((ps1.length : Int) + 1) = ((xs1 ++ [x]).length : Int) := by
    simp [hl1]
  rw [hidx, ← hunf] at hexec
  rw [hlen1] at hrep2
  exact ⟨s2, hexec, by simpa using hrep2⟩

theorem AddAt_total {s : Store T} {list : Nat} {ps : List Nat} {xs : List T}
    (h : Represents s list ps xs) (i : Int) (v : T) :
    ∃ r s' ps' xs', AddAt s (some list) i v = .ok (r, s') ∧ Represents s' list ps' xs' := by
  have hlen := Represents_length_eq h
  by_cases hi0 : i = 0
  · subst hi0
    obtain ⟨s', ps', xs', h1, h2⟩ := AddFront_total h v
    exact ⟨true, s', ps', xs', by rw [AddAt_zero]; exact h1, h2⟩
  by_cases hin : i = (xs.length : Int)
  · subst hin
    have hne : xs ≠ [] := by
      rintro rfl
      exact hi0 rfl
    obtain ⟨s2, h1, h2⟩ := AddAt_at_size_double h hne v
    exact ⟨true, s2, _, _, h1, h2⟩
  by_cases hr : i < 0 ∨ (xs.length : Int) ≤ i
  · refine ⟨false, s, ps, xs, ?_, h⟩
    exact AddAt_out_of_range v h.obj hi0 (by simpa [hlen] using hin) (by simpa [hlen] using hr)
  · obtain ⟨k, rfl⟩ : ∃ k : Nat, i = (k : Int) := ⟨i.toNat, by omega⟩
    obtain ⟨s', h1, h2⟩ := AddAt_interior_repr h k (by omega) (by omega) v
    exact ⟨true, s', _, _, h1, h2⟩

theorem PeekFront_size_zero [Inhabited T] {s : Store T} {list : Nat} {l : LinkedList}
    (hobj : s.lists[list]? = some l) (hsz : l.size = 0) :
    PeekFront s (some list) = .ok (default, s) := by
  simp [PeekFront, loadList_of hobj, hsz, bind, Except.bind, pure, Except.pure]

theorem PeekBack_size_zero [Inhabited T] {s : Store T} {list : Nat} {l : LinkedList}
    (hobj : s.lists[list]? = some l) (hsz : l.size = 0) :
    PeekBack s (some list) = .ok (default, s) := by
  simp [PeekBack, loadList_of hobj, hsz, bind, Except.bind, pure, Except.pure]

theorem RemoveFront_size_zero [Inhabited T] {s : Store T} {list : Nat} {l : LinkedList}
    (hobj : s.lists[list]? = some l) (hsz : l.size = 0) :
    RemoveFront s (some list) = .ok (default, s) := by
  simp [RemoveFront, loadList_of hobj, hsz, bind, Except.bind, pure, Except.pure]

theorem RemoveBack_size_zero [Inhabited T] {s : Store T} {list : Nat} {l : LinkedList}
    (hobj : s.lists[list]? = some l) (hsz : l.size = 0) :
    RemoveBack s (some list) = .ok (default, s) := by
  simp [RemoveBack, loadList_of hobj, hsz, bind, Except.bind, pure, Except.pure]

theorem RemoveAt_size_zero [Inhabited T] {s : Store T} {list : Nat} {l : LinkedList}
    (hobj : s.lists[list]? = some l) (hsz : l.size = 0) (i : Int) :
    RemoveAt s (some list) i = .ok (default, s) := by
  simp [RemoveAt, loadList_of hobj, hsz, bind, Except.bind, pure, Except.pure]

theorem IndexOf_size_zero (sprint : T → String) (fuel : Nat) {s : Store T} {list : Nat}
    {l : LinkedList} (hobj : s.lists[list]? = some l) (hsz : l.size = 0) (v : T) :
    IndexOf sprint fuel s (some list) v = .ok (-1, s) := by
  simp [IndexOf, loadList_of hobj, hsz, bind, Except.bind, pure, Except.pure]

theorem Contains_size_zero (sprint : T → String) (fuel : Nat) {s : Store T} {list : Nat}
    {l : LinkedList} (hobj : s.lists[list]? = some l) (hsz : l.size = 0) (v : T) :
    Contains sprint fuel s (some list) v = .ok (false, s) := by
  simp [Contains, IndexOf_size_zero sprint fuel hobj hsz, bind, Except.bind, pure, Except.pure]

theorem Remove_size_zero [Inhabited T] (sprint : T → String) (fuel : Nat) {s : Store T}
    {list : Nat} {l : LinkedList} (hobj : s.lists[list]? = some l) (hsz : l.size = 0)
    (v : T) : Remove sprint fuel s (some list) v = .ok (default, s) := by
  simp [Remove, IndexOf_size_zero sprint fuel hobj hsz, bind, Except.bind, pure, Except.pure]

theorem AddAt_size_zero {s : Store T} {list : Nat} {l : LinkedList}
    (hobj : s.lists[list]? = some l) (hsz : l.size = 0) (i : Int) (hi : i ≠ 0) (v : T) :
    AddAt s (some list) i v = .ok (false, s) := by
  have hr : i < 0 ∨ l.size ≤ i := by omega
  exact AddAt_out_of_range v hobj hi (by omega) hr

theorem IsEmpty_obj {s : Store T} {list : Nat} {l : LinkedList}
    (hobj : s.lists[list]? = some l) :
    IsEmpty s (some list) = .ok (l.size == 0, s) := by
  simp [IsEmpty, loadList_of hobj, bind, Except.bind, pure, Except.pure]

theorem Get_out_of_range [Inhabited T] {s : Store T} {list : Nat} {l : LinkedList}
    (hobj : s.lists[list]? = some l) (i : Int) (hr : i < 0 ∨ l.size ≤ i) :
    Get s (some list) i = .ok (default, s) := by
  by_cases hi : i < 0
  · simp [Get, hi, pure, Except.pure]
  · have : l.size ≤ i := by omega
    simp [Get, hi, loadList_of hobj, bind, Except.bind, pure, Except.pure, this]

theorem RemoveAt_out_of_range [Inhabited T] {s : Store T} {list : Nat} {l : LinkedList}
    (hobj : s.lists[list]? = some l) (hsz : 0 ≤ l.size) (i : Int)
    (hr : i < 0 ∨ l.size ≤ i) : RemoveAt s (some list) i = .ok (default, s) := by
  by_cases h0 : l.size = 0
  · exact RemoveAt_size_zero hobj h0 i
  · have hi0 : ¬ i = 0 := by omega
    have hin : ¬ i = l.size - 1 := by omega
    simp [RemoveAt, loadList_of hobj, h0, hi0, hin, hr, bind, Except.bind, pure, Except.pure]

theorem RemoveAt_zero [Inhabited T] {s : Store T} {list : Nat} {l : LinkedList}
    (hobj : s.lists[list]? = some l) (hsz : ¬ l.size = 0) :
    RemoveAt s (some list) 0 = RemoveFront s (some list) := by
  simp [RemoveAt, loadList_of hobj, hsz, bind, Except.bind]

theorem RemoveAt_last [Inhabited T] {s : Store T} {list : Nat} {l : LinkedList}
    (hobj : s.lists[list]? = some l) (hsz : ¬ l.size = 0) (i : Int) (hi0 : ¬ i = 0)
    (hi : i = l.size - 1) : RemoveAt s (some list) i = RemoveBack s (some list) := by
  unfold RemoveAt
  simp only [beq_iff_eq, hi0, hsz, if_false, loadList_of hobj, bind, Except.bind,
    Option.some.injEq]
  simp [hi]

theorem RemoveFront_value [Inhabited T] {s : Store T} {list : Nat} {ps : List Nat}
    {x : T} {rest : List T} (h : Represents s list ps (x :: rest)) :
    ∃ s' ps' xs', RemoveFront s (some list) = .ok (x, s') ∧ Represents s' list ps' xs' := by
  have hlen := Represents_length_eq h
  cases rest with
  | nil =>
    obtain ⟨a, rfl⟩ : ∃ a, ps = [a] := by
      match ps, hlen with
      | [], hr => simp at hr
      | [a], _ => exact ⟨a, rfl⟩
      | _ :: _ :: _, hr => simp at hr
    have hobj := h.obj
    have hch := h.chain
    simp only [Seg, firstOr] at hch
    simp only [List.head?_cons, List.length_singleton, Nat.cast_one] at hobj
    exact ⟨s, _, _, RemoveFront_exec_single hobj (by decide) hch.1 rfl, h⟩
  | cons y xs2 =>
    obtain ⟨a, b, ps2, rfl⟩ : ∃ a b ps2, ps = a :: b :: ps2 := by
      match ps, hlen with
      | [], hr => simp at hr
      | [_], hr => simp at hr
      | a :: b :: ps2, _ => exact ⟨a, b, ps2, rfl⟩
    obtain ⟨s', hexec, hrep⟩ := RemoveFront_unlink a b ps2 x y xs2 h
    exact ⟨s', _, _, hexec, hrep⟩

theorem RemoveBack_value [Inhabited T] {s : Store T} {list : Nat} {ps : List Nat}
    {xs : List T} (h : Represents s list ps xs) (hne : xs ≠ []) :
    ∃ x, xs[xs.length - 1]? = some x ∧ RemoveBack s (some list) = .ok (x, s) := by
  obtain ⟨c, x, prev, hc1, -, hx2, hc⟩ := Represents_last_cell h hne
  have hobj := h.obj
  rw [hc1] at hobj
  exact ⟨x, hx2, RemoveBack_exec hobj (Represents_size_ne_zero h hne) hc rfl⟩

theorem RemoveAt_interior_repr [Inhabited T] {s : Store T} {list : Nat} {ps : List Nat}
    {xs : List T} (h : Represents s list ps xs) (i : Nat) (h0 : 0 < i)
    (hi : i + 1 < xs.length) :
    ∃ x s', xs[i]? = some x ∧ RemoveAt s (some list) (i : Int) = .ok (x, s') ∧
      Represents s' list (ps.eraseIdx i) (xs.eraseIdx i) := by
  have hlen := Represents_length_eq h
  obtain ⟨ps1, a, r, xs1, xa, xr, hps, hxs, hl1, hl2, -, -⟩ :=
    split_lists hlen (i - 1) (by omega)
  have hrl : r.length = ps.length - i := by
    have := congrArg List.length hps
    simp at this
    omega
  have hxrl : xr.length = ps.length - i := by
    have := congrArg List.length hxs
    simp at this
    omega
  obtain ⟨c, b, ps2, rfl⟩ : ∃ c b ps2, r = c :: b :: ps2 := by
    match r, hrl with
    | [], hr => simp at hr; omega
    | [_], hr => simp at hr; omega
    | c :: b :: ps2, _ => exact ⟨c, b, ps2, rfl⟩
  obtain ⟨xc, xb, xs2, rfl⟩ : ∃ xc xb xs2, xr = xc :: xb :: xs2 := by
    match xr, hxrl with
    | [], hr => simp at hr; omega
    | [_], hr => simp at hr; omega
    | xc :: xb :: xs2, _ => exact ⟨xc, xb, xs2, rfl⟩
  have h' := h
  rw [hps, hxs] at h'
  obtain ⟨s', hexec, hrep⟩ :=
    RemoveAt_unlink ps1 a c b ps2 xs1 xa xc xb xs2 (hl1.trans hl2.symm) h'
  have hidx : ((ps1.length : Int) + 1) = (i : Int) := by omega
  rw [hidx] at hexec
  have eps : ps.eraseIdx i = ps1 ++ a :: b :: ps2 := by
    have e : ps = (ps1 ++ [a]) ++ c :: (b :: ps2) := by simp [hps]
    have el : (ps1 ++ [a]).length = i := by simp; omega
    rw [e, ← el, eraseIdx_middle]; simp
  have exs : xs.eraseIdx i = xs1 ++ xa :: xb :: xs2 := by
    have e : xs = (xs1 ++ [xa]) ++ xc :: (xb :: xs2) := by simp [hxs]
    have el : (xs1 ++ [xa]).length = i := by simp; omega
    rw [e, ← el, eraseIdx_middle]; simp
  have hxi : xs[i]? = some xc := by
    have e : xs = (xs1 ++ [xa]) ++ xc :: (xb :: xs2) := by simp [hxs]
    have el : (xs1 ++ [xa]).length = i := by simp; omega
    rw [e, ← el, List.getElem?_append_right (le_refl _)]; simp
  rw [← eps, ← exs] at hrep
  exact ⟨xc, s', hxi, hexec, hrep⟩

theorem RemoveAt_value [Inhabited T] {s : Store T} {list : Nat} {ps : List Nat}
    {xs : List T} (h : Represents s list ps xs) (k : Nat) (x : T) (hx : xs[k]? = some x) :
    ∃ s' ps' xs', RemoveAt s (some list) (k : Int) = .ok (x, s') ∧
      Represents s' list ps' xs' := by
  have hlen := Represents_length_eq h
  have hk : k < xs.length := getElem_of_getElem? hx
  have hne : xs ≠ [] := by
    rintro rfl
    simp at hk
  have hn0 := Represents_size_ne_zero h hne
  by_cases hk0 : k = 0
  · subst hk0
    obtain ⟨y, rest, rfl⟩ : ∃ y rest, xs = y :: rest := by
      cases xs with
      | nil => exact absurd rfl hne
      | cons y rest => exact ⟨y, rest, rfl⟩
    simp only [List.getElem?_cons_zero, Option.some.injEq] at hx
    subst hx
    have := RemoveAt_zero h.obj hn0
    simp only [Nat.cast_zero]
    rw [this]
    exact RemoveFront_value h
  by_cases hkl : k + 1 = xs.length
  · have hlast := RemoveAt_last h.obj hn0 (k : Int) (by omega) (by simp only; omega)
    rw [hlast]
    obtain ⟨y, hy, hrun⟩ := RemoveBack_value h hne
    have e : xs.length - 1 = k := by omega
    rw [e, hx] at hy
    cases hy
    exact ⟨s, ps, xs, hrun, h⟩
  · obtain ⟨y, s', hy, hrun, hrep⟩ := RemoveAt_interior_repr h k (by omega) (by omega)
    rw [hx] at hy
    cases hy
    exact ⟨s', _, _, hrun, hrep⟩

theorem RemoveAt_total [Inhabited T] {s : Store T} {list : Nat} {ps : List Nat}
    {xs : List T} (h : Represents s list ps xs) (i : Int) :
    ∃ r s' ps' xs', RemoveAt s (some list) i = .ok (r, s') ∧ Represents s' list ps' xs' := by
  have hlen := Represents_length_eq h
  by_cases hr : i < 0 ∨ (xs.length : Int) ≤ i
  · refine ⟨default, s, ps, xs, ?_, h⟩
    exact RemoveAt_out_of_range h.obj (by simp) i (by simpa [hlen] using hr)
  · obtain ⟨k, rfl⟩ : ∃ k : Nat, i = (k : Int) := ⟨i.toNat, by omega⟩
    have hk : k < xs.length := by omega
    obtain ⟨s', ps', xs', h1, h2⟩ := RemoveAt_value h k xs[k] (List.getElem?_eq_getElem hk)
    exact ⟨_, s', ps', xs', h1, h2⟩

theorem RemoveFront_total [Inhabited T] {s : Store T} {list : Nat} {ps : List Nat}
    {xs : List T} (h : Represents s list ps xs) :
    ∃ r s' ps' xs', RemoveFront s (some list) = .ok (r, s') ∧ Represents s' list ps' xs' := by
  cases xs with
  | nil =>
    have hp := Represents_nil_of h rfl
    subst hp
    exact ⟨default, s, [], [], RemoveFront_size_zero (Represents_nil_iff.1 h) rfl, h⟩
  | cons x rest =>
    obtain ⟨s', ps', xs', h1, h2⟩ := RemoveFront_value h
    exact ⟨x, s', ps', xs', h1, h2⟩

theorem RemoveBack_total [Inhabited T] {s : Store T} {list : Nat} {ps : List Nat}
    {xs : List T} (h : Represents s list ps xs) :
    ∃ r, RemoveBack s (some list) = .ok (r, s) := by
  by_cases hx : xs = []
  · have hp := Represents_nil_of h hx
    subst hx; subst hp
    exact ⟨default, RemoveBack_size_zero (Represents_nil_iff.1 h) rfl⟩
  · obtain ⟨x, -, hrun⟩ := RemoveBack_value h hx
    exact ⟨x, hrun⟩

theorem Remove_unfold [Inhabited T] (sprint : T → String) {s : Store T} {list : Nat}
    {ps : List Nat} {xs : List T} (h : Represents s list ps xs) (fuel : Nat)
    (hfuel : xs.length ≤ fuel) (v : T) :
    Remove sprint fuel s (some list) v =
      if firstMatch sprint v xs 0 = -1 then .ok (default, s)
      else RemoveAt s (some list) (firstMatch sprint v xs 0) := by
  simp only [Remove, IndexOf_of_represents sprint h fuel hfuel v, bind, Except.bind, pure,
    Except.pure, beq_iff_eq]

theorem Remove_total [Inhabited T] (sprint : T → String) {s : Store T} {list : Nat}
    {ps : List Nat} {xs : List T} (h : Represents s list ps xs) (fuel : Nat)
    (hfuel : xs.length ≤ fuel) (v : T) :
    ∃ r s' ps' xs', Remove sprint fuel s (some list) v = .ok (r, s') ∧
      Represents s' list ps' xs' := by
  rw [Remove_unfold sprint h fuel hfuel v]
  by_cases hm : firstMatch sprint v xs 0 = -1
  · rw [if_pos hm]
    exact ⟨default, s, ps, xs, rfl, h⟩
  · rw [if_neg hm]
    exact RemoveAt_total h _

theorem PeekFront_total [Inhabited T] {s : Store T} {list : Nat} {ps : List Nat}
    {xs : List T} (h : Represents s list ps xs) :
    ∃ r, PeekFront s (some list) = .ok (r, s) := by
  by_cases hx : xs = []
  · have hp := Represents_nil_of h hx
    subst hx; subst hp
    exact ⟨default, PeekFront_size_zero (Represents_nil_iff.1 h) rfl⟩
  · obtain ⟨a, x, nxt, ha1, -, -, ha⟩ := Represents_first_cell h hx
    have hobj := h.obj
    rw [ha1] at hobj
    exact ⟨x, PeekFront_exec hobj (Represents_size_ne_zero h hx) ha⟩

theorem PeekBack_total [Inhabited T] {s : Store T} {list : Nat} {ps : List Nat}
    {xs : List T} (h : Represents s list ps xs) :
    ∃ r, PeekBack s (some list) = .ok (r, s) := by
  by_cases hx : xs = []
  · have hp := Represents_nil_of h hx
    subst hx; subst hp
    exact ⟨default, PeekBack_size_zero (Represents_nil_iff.1 h) rfl⟩
  · obtain ⟨c, x, prev, hc1, -, -, hc⟩ := Represents_last_cell h hx
    have hobj := h.obj
    rw [hc1] at hobj
    exact ⟨x, PeekBack_exec hobj (Represents_size_ne_zero h hx) hc⟩

theorem Get_total [Inhabited T] {s : Store T} {list : Nat} {ps : List Nat}
    {xs : List T} (h : Represents s list ps xs) (i : Int) :
    ∃ r, Get s (some list) i = .ok (r, s) := by
  have hlen := Represents_length_eq h
  by_cases hr : i < 0 ∨ (xs.length : Int) ≤ i
  · exact ⟨default, Get_out_of_range h.obj i (by simpa [hlen] using hr)⟩
  · obtain ⟨k, rfl⟩ : ∃ k : Nat, i = (k : Int) := ⟨i.toNat, by omega⟩
    have hk : k < xs.length := by omega
    exact ⟨xs[k], Get_of_represents h k xs[k] (List.getElem?_eq_getElem hk)⟩

theorem Contains_of_represents (sprint : T → String) {s : Store T} {list : Nat}
    {ps : List Nat} {xs : List T} (h : Represents s list ps xs) (fuel : Nat)
    (hfuel : xs.length ≤ fuel) (v : T) :
    Contains sprint fuel s (some list) v = .ok (firstMatch sprint v xs 0 != -1, s) := by
  simp [Contains, IndexOf_of_represents sprint h fuel hfuel v, bind, Except.bind, pure,
    Except.pure]

/-! ## Calls preserve well-formedness -/

theorem map_snd_ok {α β : Type} {r : Except Fault (α × β)} {a : α} {b : β}
    (h : r = .ok (a, b)) : r.map Prod.snd = .ok b := by
  rw [h]; rfl

theorem Operation_run_total [Inhabited T] (sprint : T → String) {s : Store T} {list : Nat}
    {ps : List Nat} {xs : List T} (h : Represents s list ps xs) (fuel : Nat)
    (hfuel : xs.length ≤ fuel) (op : Operation T) :
    ∃ s' ps' xs', op.run sprint fuel s (some list) = .ok s' ∧ Represents s' list ps' xs' := by
  cases op with
  | addFront v =>
    obtain ⟨s', ps', xs', h1, h2⟩ := AddFront_total h v
    exact ⟨s', ps', xs', map_snd_ok h1, h2⟩
  | addBack v =>
    obtain ⟨s', ps', xs', h1, h2⟩ := AddBack_total h v
    exact ⟨s', ps', xs', map_snd_ok h1, h2⟩
  | addAt i v =>
    obtain ⟨r, s', ps', xs', h1, h2⟩ := AddAt_total h i v
    exact ⟨s', ps', xs', map_snd_ok h1, h2⟩
  | fromArray a =>
    obtain ⟨s', ps', xs', h1, h2⟩ := FromArray_total h a
    exact ⟨s', ps', xs', map_snd_ok h1, h2⟩
  | size => exact ⟨s, ps, xs, map_snd_ok (Size_of_represents h), h⟩
  | isEmpty => exact ⟨s, ps, xs, map_snd_ok (IsEmpty_obj h.obj), h⟩
  | peekFront =>
    obtain ⟨r, h1⟩ := PeekFront_total h
    exact ⟨s, ps, xs, map_snd_ok h1, h⟩
  | peekBack =>
    obtain ⟨r, h1⟩ := PeekBack_total h
    exact ⟨s, ps, xs, map_snd_ok h1, h⟩
  | get i =>
    obtain ⟨r, h1⟩ := Get_total h i
    exact ⟨s, ps, xs, map_snd_ok h1, h⟩
  | indexOf v =>
    exact ⟨s, ps, xs, map_snd_ok (IndexOf_of_represents sprint h fuel hfuel v), h⟩
  | contains v =>
    exact ⟨s, ps, xs, map_snd_ok (Contains_of_represents sprint h fuel hfuel v), h⟩
  | removeFront =>
    obtain ⟨r, s', ps', xs', h1, h2⟩ := RemoveFront_total h
    exact ⟨s', ps', xs', map_snd_ok h1, h2⟩
  | removeBack =>
    obtain ⟨r, h1⟩ := RemoveBack_total h
    exact ⟨s, ps, xs, map_snd_ok h1, h⟩
  | remove v =>
    obtain ⟨r, s', ps', xs', h1, h2⟩ := Remove_total sprint h fuel hfuel v
    exact ⟨s', ps', xs', map_snd_ok h1, h2⟩
  | removeAt i =>
    obtain ⟨r, s', ps', xs', h1, h2⟩ := RemoveAt_total h i
    exact ⟨s', ps', xs', map_snd_ok h1, h2⟩
  | clear => exact ⟨s, ps, xs, rfl, h⟩

theorem AddFront_keeps_empty {s : Store T} {list : Nat}
    (hobj : s.lists[list]? = some ⟨none, none, 0⟩) (v : T) :
    ∃ s', AddFront s (some list) v = .ok (true, s') ∧
      s'.lists[list]? = some ⟨none, none, 0⟩ :=
  ⟨_, AddFront_size_zero hobj rfl v,
    getElem?_append_of_some s.lists [⟨some s.nodes.length, some s.nodes.length, 1⟩] hobj⟩

theorem AddBack_keeps_empty {s : Store T} {list : Nat}
    (hobj : s.lists[list]? = some ⟨none, none, 0⟩) (v : T) :
    ∃ s', AddBack s (some list) v = .ok (true, s') ∧
      s'.lists[list]? = some ⟨none, none, 0⟩ :=
  ⟨_, AddBack_size_zero hobj rfl v,
    getElem?_append_of_some s.lists [⟨some s.nodes.length, some s.nodes.length, 1⟩] hobj⟩

theorem Operation_run_empty [Inhabited T] (sprint : T → String) (fuel : Nat) {s : Store T}
    {list : Nat} (hobj : s.lists[list]? = some ⟨none, none, 0⟩) (op : Operation T) :
    ∃ s', op.run sprint fuel s (some list) = .ok s' ∧
      s'.lists[list]? = some ⟨none, none, 0⟩ := by
  cases op with
  | addFront v =>
    obtain ⟨s', h1, h2⟩ := AddFront_keeps_empty hobj v
    exact ⟨s', map_snd_ok h1, h2⟩
  | addBack v =>
    obtain ⟨s', h1, h2⟩ := AddBack_keeps_empty hobj v
    exact ⟨s', map_snd_ok h1, h2⟩
  | addAt i v =>
    by_cases hi : i = 0
    · subst hi
      obtain ⟨s', h1, h2⟩ := AddFront_keeps_empty hobj v
      exact ⟨s', map_snd_ok (by rw [AddAt_zero]; exact h1), h2⟩
    · exact ⟨s, map_snd_ok (AddAt_size_zero hobj rfl i hi v), hobj⟩
  | fromArray a =>
    obtain ⟨s', h1, h2⟩ := FromArray_size_zero hobj rfl a
    exact ⟨s', map_snd_ok h1, h2⟩
  | size => exact ⟨s, map_snd_ok (Size_obj hobj), hobj⟩
  | isEmpty => exact ⟨s, map_snd_ok (IsEmpty_obj hobj), hobj⟩
  | peekFront => exact ⟨s, map_snd_ok (PeekFront_size_zero hobj rfl), hobj⟩
  | peekBack => exact ⟨s, map_snd_ok (PeekBack_size_zero hobj rfl), hobj⟩
  | get i => exact ⟨s, map_snd_ok (Get_size_zero hobj rfl i), hobj⟩
  | indexOf v => exact ⟨s, map_snd_ok (IndexOf_size_zero sprint fuel hobj rfl v), hobj⟩
  | contains v => exact ⟨s, map_snd_ok (Contains_size_zero sprint fuel hobj rfl v), hobj⟩
  | removeFront => exact ⟨s, map_snd_ok (RemoveFront_size_zero hobj rfl), hobj⟩
  | removeBack => exact ⟨s, map_snd_ok (RemoveBack_size_zero hobj rfl), hobj⟩
  | remove v => exact ⟨s, map_snd_ok (Remove_size_zero sprint fuel hobj rfl v), hobj⟩
  | removeAt i => exact ⟨s, map_snd_ok (RemoveAt_size_zero hobj rfl i), hobj⟩
  | clear => exact ⟨s, rfl, hobj⟩

theorem runAll_empty [Inhabited T] (sprint : T → String) (fuel : Nat) {s : Store T}
    {list : Nat} (hobj : s.lists[list]? = some ⟨none, none, 0⟩) (ops : List (Operation T)) :
    ∃ s', runAll sprint fuel (some list) s ops = .ok s' ∧
      s'.lists[list]? = some ⟨none, none, 0⟩ := by
  induction ops generalizing s with
  | nil => exact ⟨s, rfl, hobj⟩
  | cons op ops ih =>
    obtain ⟨s1, h1, hobj1⟩ := Operation_run_empty sprint fuel hobj op
    obtain ⟨s', h2, hobj'⟩ := ih hobj1
    refine ⟨s', ?_, hobj'⟩
    simp only [runAll, h1, bind, Except.bind]
    exact h2

/-! ## `AddFront` followed by `RemoveFront` -/

theorem AddFront_then_RemoveFront [Inhabited T] {s : Store T} {list : Nat} {ps : List Nat}
    {xs : List T} (h : Represents s list ps xs) (hne : xs ≠ []) (v : T) :
    ∃ s1 s2, AddFront s (some list) v = .ok (true, s1) ∧
      RemoveFront s1 (some list) = .ok (v, s2) ∧ Represents s2 list ps xs := by
  have hlen := Represents_length_eq h
  obtain ⟨s1, h1, hrep1⟩ := AddFront_prepend h hne v
  obtain ⟨x, xs2, rfl⟩ : ∃ x xs2, xs = x :: xs2 := by
    cases xs with
    | nil => exact absurd rfl hne
    | cons x xs2 => exact ⟨x, xs2, rfl⟩
  obtain ⟨a, ps2, rfl⟩ : ∃ a ps2, ps = a :: ps2 := by
    cases ps with
    | nil => simp at hlen
    | cons a ps2 => exact ⟨a, ps2, rfl⟩
  obtain ⟨s2, h2, hrep2⟩ := RemoveFront_unlink s.nodes.length a ps2 v x xs2 hrep1
  exact ⟨s1, s2, h1, h2, hrep2⟩

/-! ## The structural invariants describe the well-formed lists -/

theorem nextChain_of_seg {s : Store T} {prev nxt : Option Nat} {ps : List Nat}
    {xs : List T} (h : Seg s.nodes prev ps xs nxt) (d : Option Nat) :
    nextChain s ps.length (firstOr ps d) = some ps := by
  induction ps generalizing prev xs d with
  | nil => rfl
  | cons p ps ih =>
    cases xs with
    | nil => simp [Seg] at h
    | cons x xs =>
      simp only [Seg] at h
      simp only [List.length_cons, firstOr_cons, nextChain, h.1]
      rw [ih h.2 nxt]
      rfl

theorem prevChain_of_seg {s : Store T} {prev nxt : Option Nat} {ps : List Nat}
    {xs : List T} (h : Seg s.nodes prev ps xs nxt) (d : Option Nat) :
    prevChain s ps.length (lastOr ps d) = some ps.reverse := by
  induction ps using List.reverseRecOn generalizing nxt xs d with
  | nil => rfl
  | append_singleton ps c ih =>
    have hlen := Seg_length_eq h
    rcases List.eq_nil_or_concat xs with hx | ⟨xs1, x, hx⟩
    · subst hx; simp at hlen
    rw [List.concat_eq_append] at hx
    subst hx
    have hl1 : ps.length = xs1.length := by simpa using hlen
    have hc := Seg_cell hl1 h
    rw [Seg_append ps xs1 hl1] at h
    simp only [List.length_append, List.length_singleton, lastOr_append, lastOr_cons, lastOr,
      prevChain, hc, List.reverse_append, List.reverse_singleton, List.singleton_append]
    rw [ih h.1 prev]
    rfl

theorem Invariants_of_represents {s : Store T} {list : Nat} {ps : List Nat} {xs : List T}
    (h : Represents s list ps xs) : Invariants s list := by
  refine ⟨_, h.obj, ?_, ?_, ps, rfl, ?_, rfl, ?_, rfl⟩
  · cases ps with
    | nil => simp
    | cons p ps => simp; omega
  · intro h1
    have hne : xs ≠ [] := by
      rintro rfl
      have := Represents_nil_of h rfl
      subst this
      simp at h1
    obtain ⟨a, x, nxt, ha1, -, -, ha⟩ := Represents_first_cell h hne
    obtain ⟨c, y, prev, hc1, -, -, hc⟩ := Represents_last_cell h hne
    refine ⟨⟨x, none, nxt⟩, ⟨y, prev, none⟩, ?_, rfl, ?_, rfl⟩
    · simp only [ha1]; exact loadNode_of ha
    · simp only [hc1]; exact loadNode_of hc
  · have := nextChain_of_seg h.chain none
    rwa [firstOr_none] at this
  · have := prevChain_of_seg h.chain none
    rwa [lastOr_none] at this

theorem nextChain_links {s : Store T} {k : Nat} {p : Option Nat} {ps : List Nat}
    (h : nextChain s k p = some ps) :
    ps.length = k ∧ ∀ i a, ps[i]? = some a →
      ∃ n, s.nodes[a]? = some n ∧ ∀ b, ps[i + 1]? = some b → n.next = some b := by
  induction k generalizing p ps with
  | zero =>
    simp only [nextChain, Option.some.injEq] at h
    subst h
    simp
  | succ k ih =>
    cases p with
    | none => simp [nextChain] at h
    | some a =>
      simp only [nextChain] at h
      cases hn : s.nodes[a]? with
      | none => simp [hn] at h
      | some n =>
        simp only [hn, Option.map_eq_some'] at h
        obtain ⟨r, hr, rfl⟩ := h
        obtain ⟨hl, hlinks⟩ := ih hr
        refine ⟨by simp [hl], ?_⟩
        intro i c hc
        cases i with
        | zero =>
          simp only [List.getElem?_cons_zero, Option.some.injEq] at hc
          subst hc
          refine ⟨n, hn, ?_⟩
          intro b hb
          simp only [List.getElem?_cons_succ] at hb
          cases k with
          | zero =>
            simp only [nextChain, Option.some.injEq] at hr
            subst hr
            simp at hb
          | succ k =>
            cases hnx : n.next with
            | none => rw [hnx] at hr; simp [nextChain] at hr
            | some q =>
              rw [hnx] at hr
              simp only [nextChain] at hr
              cases hq : s.nodes[q]? with
              | none => simp [hq] at hr
              | some m =>
                simp only [hq, Option.map_eq_some'] at hr
                obtain ⟨r2, -, rfl⟩ := hr
                simp only [List.getElem?_cons_zero, Option.some.injEq] at hb
                rw [hb]
        | succ i =>
          simp only [List.getElem?_cons_succ] at hc
          obtain ⟨m, hm, hmn⟩ := hlinks i c hc
          exact ⟨m, hm, fun b hb => hmn b (by simpa using hb)⟩

theorem prevChain_links {s : Store T} {k : Nat} {p : Option Nat} {ps : List Nat}
    (h : prevChain s k p = some ps) :
    ps.length = k ∧ ∀ i a, ps[i]? = some a →
      ∃ n, s.nodes[a]? = some n ∧ ∀ b, ps[i + 1]? = some b → n.previous = some b := by
  induction k generalizing p ps with
  | zero =>
    simp only [prevChain, Option.some.injEq] at h
    subst h
    simp
  | succ k ih =>
    cases p with
    | none => simp [prevChain] at h
    | some a =>
      simp only [prevChain] at h
      cases hn : s.nodes[a]? with
      | none => simp [hn] at h
      | some n =>
        simp only [hn, Option.map_eq_some'] at h
        obtain ⟨r, hr, rfl⟩ := h
        obtain ⟨hl, hlinks⟩ := ih hr
        refine ⟨by simp [hl], ?_⟩
        intro i c hc
        cases i with
        | zero =>
          simp only [List.getElem?_cons_zero, Option.some.injEq] at hc
          subst hc
          refine ⟨n, hn, ?_⟩
          intro b hb
          simp only [List.getElem?_cons_succ] at hb
          cases k with
          | zero =>
            simp only [prevChain, Option.some.injEq] at hr
            subst hr
            simp at hb
          | succ k =>
            cases hnx : n.previous with
            | none => rw [hnx] at hr; simp [prevChain] at hr
            | some q =>
              rw [hnx] at hr
              simp only [prevChain] at hr
              cases hq : s.nodes[q]? with
              | none => simp [hq] at hr
              | some m =>
                simp only [hq, Option.map_eq_some'] at hr
                obtain ⟨r2, -, rfl⟩ := hr
                simp only [List.getElem?_cons_zero, Option.some.injEq] at hb
                rw [hb]
        | succ i =>
          simp only [List.getElem?_cons_succ] at hc
          obtain ⟨m, hm, hmn⟩ := hlinks i c hc
          exact ⟨m, hm, fun b hb => hmn b (by simpa using hb)⟩

theorem Seg_of_links (nodes : List (LinkedListNode T)) (ps : List Nat)
    (prev nxt : Option Nat)
    (h : ∀ i a, ps[i]? = some a → ∃ n, nodes[a]? = some n ∧
      n.previous = (if i = 0 then prev else ps[i - 1]?) ∧
      n.next = (if i + 1 < ps.length then ps[i + 1]? else nxt)) :
    ∃ xs, Seg nodes prev ps xs nxt := by
  induction ps generalizing prev with
  | nil => exact ⟨[], trivial⟩
  | cons p ps ih =>
    obtain ⟨n0, hn0, hp0, hx0⟩ := h 0 p (by simp)
    have hrest : ∀ i a, ps[i]? = some a → ∃ n, nodes[a]? = some n ∧
        n.previous = (if i = 0 then some p else ps[i - 1]?) ∧
        n.next = (if i + 1 < ps.length then ps[i + 1]? else nxt) := by
      intro i a hia
      obtain ⟨n, hn, hpv, hnx⟩ := h (i + 1) a (by simpa using hia)
      refine ⟨n, hn, ?_, ?_⟩
      · rw [hpv]
        cases i with
        | zero => simp
        | succ j => simp
      · rw [hnx]
        simp only [List.length_cons, List.getElem?_cons_succ, add_lt_add_iff_right]
    obtain ⟨xs, hxs⟩ := ih (some p) hrest
    refine ⟨n0.value :: xs, ?_⟩
    simp only [Seg]
    refine ⟨?_, hxs⟩
    rw [hn0]
    simp only [if_true] at hp0
    have hfirst : n0.next = firstOr ps nxt := by
      rw [hx0]
      cases ps with
      | nil => simp [firstOr]
      | cons q r => simp [firstOr]
    cases n0 with
    | mk val pv nx =>
      simp only at hp0 hfirst
      rw [hp0, hfirst]

theorem loadNode_ok_iff {s : Store T} {p : Option Nat} {n : LinkedListNode T} :
    loadNode s p = .ok n ↔ ∃ a, p = some a ∧ s.nodes[a]? = some n := by
  cases p with
  | none => simp [loadNode]
  | some a =>
    cases hn : s.nodes[a]? with
    | none => simp [loadNode, hn]
    | some m => simp [loadNode, hn]

theorem Represents_of_invariants {s : Store T} {list : Nat} (h : Invariants s list) :
    ∃ ps xs, Represents s list ps xs := by
  obtain ⟨l, hobj, -, hb, ps, hsz, hnext, htail, hprev, hhead⟩ := h
  obtain ⟨-, hN⟩ := nextChain_links hnext
  obtain ⟨-, hP⟩ := prevChain_links hprev
  have hlinks : ∀ i a, ps[i]? = some a → ∃ n, s.nodes[a]? = some n ∧
      n.previous = (if i = 0 then none else ps[i - 1]?) ∧
      n.next = (if i + 1 < ps.length then ps[i + 1]? else none) := by
    intro i a hia
    have hi : i < ps.length := getElem_of_getElem? hia
    have h1 : 1 ≤ l.size := by omega
    obtain ⟨hd, tl, hhd, hhdp, htl, htln⟩ := hb h1
    obtain ⟨n, hn, hnn⟩ := hN i a hia
    refine ⟨n, hn, ?_, ?_⟩
    · by_cases hi0 : i = 0
      · subst hi0
        rw [if_pos rfl]
        obtain ⟨a', ha', hna'⟩ := loadNode_ok_iff.1 hhd
        rw [← hhead, List.head?_eq_getElem?, hia] at ha'
        cases ha'
        rw [hn] at hna'
        cases hna'
        exact hhdp
      · rw [if_neg hi0]
        have hj : ps.length - 1 - i < ps.length := by omega
        have hrev : ps.reverse[ps.length - 1 - i]? = some a := by
          rw [List.getElem?_reverse hj]
          have e : ps.length - 1 - (ps.length - 1 - i) = i := by omega
          rw [e]; exact hia
        obtain ⟨m, hm, hmp⟩ := hP _ a hrev
        rw [hn] at hm
        cases hm
        have hj2 : ps.length - 1 - i + 1 < ps.length := by omega
        have hb' : ps.reverse[ps.length - 1 - i + 1]? = ps[i - 1]? := by
          rw [List.getElem?_reverse hj2]
          congr 1
          omega
        have hlt : i - 1 < ps.length := by omega
        rw [List.getElem?_eq_getElem hlt] at hb' ⊢
        exact hmp _ hb'
    · by_cases hi1 : i + 1 < ps.length
      · rw [if_pos hi1, List.getElem?_eq_getElem hi1]
        exact hnn _ (List.getElem?_eq_getElem hi1)
      · rw [if_neg hi1]
        obtain ⟨a', ha', hna'⟩ := loadNode_ok_iff.1 htl
        have e : ps.length - 1 = i := by omega
        rw [← htail, List.getLast?_eq_getElem?, e, hia] at ha'
        cases ha'
        rw [hn] at hna'
        cases hna'
        exact htln
  obtain ⟨xs, hxs⟩ := Seg_of_links s.nodes ps none none hlinks
  refine ⟨ps, xs, Represents_of_chain ?_ hxs⟩
  rw [hobj]
  cases l with
  | mk hd tl sz =>
    simp only at hsz htail hhead
    rw [hhead, htail, hsz]

theorem Invariants_iff {s : Store T} {list : Nat} :
    Invariants s list ↔ ∃ ps xs, Represents s list ps xs :=
  ⟨Represents_of_invariants, fun ⟨_, _, h⟩ => Invariants_of_represents h⟩

theorem Invariants_fuel {s : Store T} {list : Nat} {ps : List Nat} {xs : List T}
    (h : Represents s list ps xs) {n : Int} {fuel : Nat}
    (hsize : Size s (some list) = .ok (n, s)) (hfuel : n ≤ (fuel : Int)) :
    xs.length ≤ fuel := by
  rw [Size_of_represents h] at hsize
  cases hsize
  omega

/-! ## The claims -/

/-- C1: after `NewLinkedList()` and one `AddBack(v)` the list the caller holds still has
size 0 and `Get(0)` is the zero value: the node went into a list object that only the
local variable of `AddBack` ever pointed to. -/
theorem AddBack_after_NewLinkedList_lost [Inhabited T] (s : Store T) (v : T) :
    ∃ s', AddBack (NewLinkedList s).2 (NewLinkedList s).1 v = .ok (true, s') ∧
      Size s' (NewLinkedList s).1 = .ok (0, s') ∧
      Get s' (NewLinkedList s).1 0 = .ok (default, s') := by
  obtain ⟨hp, hobj⟩ := NewLinkedList_obj s
  rw [hp]
  refine ⟨_, AddBack_size_zero hobj rfl v, ?_, ?_⟩
  · exact Size_obj (s := ⟨_, _⟩) (l := ⟨none, none, 0⟩) (getElem?_append_of_some _ _ hobj)
  · exact Get_size_zero (s := ⟨_, _⟩) (l := ⟨none, none, 0⟩)
      (getElem?_append_of_some _ _ hobj) rfl 0

/-- C2: `FromArray(items)` on the empty list of `NewLinkedList()` returns the receiver, but
the list still has size 0 and `Get` returns the zero value at every index, whatever
`items` holds. -/
theorem FromArray_after_NewLinkedList_lost [Inhabited T] (s : Store T) (items : List T) :
    ∃ s', FromArray (NewLinkedList s).2 (NewLinkedList s).1 items
        = .ok ((NewLinkedList s).1, s') ∧
      Size s' (NewLinkedList s).1 = .ok (0, s') ∧
      ∀ i : Int, Get s' (NewLinkedList s).1 i = .ok (default, s') := by
  obtain ⟨hp, hobj⟩ := NewLinkedList_obj s
  rw [hp]
  obtain ⟨s', hrun, hobj'⟩ := FromArray_size_zero hobj rfl items
  exact ⟨s', hrun, Size_obj hobj', fun i => Get_size_zero hobj' rfl i⟩

/-- C3: on a well-formed list holding `xs`, `AddAt(i, v)` with `0 < i < n` returns true and
leaves a well-formed list holding `xs[0..i) ++ [v] ++ xs[i..n)`: the size is `n + 1`,
`Get(i)` is `v`, `Get(j)` is unchanged below `i`, and `Get(j+1)` is the old `Get(j)` from
`i` on. -/
theorem AddAt_interior [Inhabited T] {s : Store T} {list : Nat} {ps : List Nat}
    {xs : List T} (h : Represents s list ps xs) (i : Nat) (h0 : 0 < i)
    (hi : i < xs.length) (v : T) :
    ∃ s', AddAt s (some list) (i : Int) v = .ok (true, s') ∧
      Size s (some list) = .ok ((xs.length : Int), s) ∧
      Size s' (some list) = .ok ((xs.length : Int) + 1, s') ∧
      Represents s' list (ps.take i ++ s.nodes.length :: ps.drop i)
        (xs.take i ++ v :: xs.drop i) ∧
      Get s' (some list) (i : Int) = .ok (v, s') ∧
      (∀ (j : Nat) (x : T), j < i → xs[j]? = some x →
        Get s (some list) (j : Int) = .ok (x, s) ∧
        Get s' (some list) (j : Int) = .ok (x, s')) ∧
      (∀ (j : Nat) (x : T), i ≤ j → xs[j]? = some x →
        Get s (some list) (j : Int) = .ok (x, s) ∧
        Get s' (some list) ((j : Int) + 1) = .ok (x, s')) := by
  have hlen := Represents_length_eq h
  obtain ⟨ps1, a, r, xs1, xa, xr, hps, hxs, hl1, hl2, -, -⟩ :=
    split_lists hlen (i - 1) (by omega)
  have hr : r.length = xr.length := by
    have := congrArg List.length hps
    have := congrArg List.length hxs
    simp at *
    omega
  have hrpos : 0 < r.length := by
    have := congrArg List.length hps
    simp at this
    omega
  obtain ⟨b, ps2, rfl⟩ : ∃ b ps2, r = b :: ps2 := by
    cases r with
    | nil => simp at hrpos
    | cons b ps2 => exact ⟨b, ps2, rfl⟩
  obtain ⟨xb, xs2, rfl⟩ : ∃ xb xs2, xr = xb :: xs2 := by
    cases xr with
    | nil => simp at hr
    | cons xb xs2 => exact ⟨xb, xs2, rfl⟩
  have htake : ps.take i = ps1 ++ [a] ∧ ps.drop i = b :: ps2 := by
    have e : ps = (ps1 ++ [a]) ++ b :: ps2 := by simp [hps]
    have el : (ps1 ++ [a]).length = i := by simp; omega
    constructor
    · rw [e, ← el, List.take_left]
    · rw [e, ← el, List.drop_left]
  have htakex : xs.take i = xs1 ++ [xa] ∧ xs.drop i = xb :: xs2 := by
    have e : xs = (xs1 ++ [xa]) ++ xb :: xs2 := by simp [hxs]
    have el : (xs1 ++ [xa]).length = i := by simp; omega
    constructor
    · rw [e, ← el, List.take_left]
    · rw [e, ← el, List.drop_left]
  have h' := h
  rw [hps, hxs] at h'
  obtain ⟨s', hexec, hrep⟩ := AddAt_splice ps1 a b ps2 xs1 xa xb xs2 (hl1.trans hl2.symm) h' v
  have hidx : ((ps1.length : Int) + 1) = (i : Int) := by omega
  rw [hidx] at hexec
  have hrep' : Represents s' list (ps.take i ++ s.nodes.length :: ps.drop i)
      (xs.take i ++ v :: xs.drop i) := by
    rw [htake.1, htake.2, htakex.1, htakex.2]
    simpa using hrep
  refine ⟨s', hexec, Size_of_represents h, ?_, hrep', ?_, ?_, ?_⟩
  · have := Size_of_represents hrep'
    rw [this]
    simp [List.length_take]
    omega
  · exact Get_of_represents hrep' i v (getElem?_insert_eq xs i v (by omega))
  · intro j x hj hx
    refine ⟨Get_of_represents h j x hx, Get_of_represents hrep' j x ?_⟩
    rw [getElem?_insert_lt xs i j v hj (by omega)]; exact hx
  · intro j x hj hx
    refine ⟨Get_of_represents h j x hx, ?_⟩
    have := Get_of_represents hrep' (j + 1) x
      (by rw [getElem?_insert_gt xs i j v hj (by omega)]; exact hx)
    simpa using this

theorem AddAt_interior_witness :
    Represents list_10_20_30 0 [0, 1, 2] [10, 20, 30] ∧
    ∃ s', AddAt list_10_20_30 (some 0) 1 99 = .ok (true, s') ∧
      Size s' (some 0) = .ok (4, s') ∧
      Represents s' 0 [0, 3, 1, 2] [10, 99, 20, 30] ∧
      Get s' (some 0) 1 = .ok (99, s') := by
  have hrep : Represents list_10_20_30 0 [0, 1, 2] [10, 20, 30] := by decide
  obtain ⟨s', h1, -, h3, h4, h5, -⟩ := AddAt_interior hrep 1 (by decide) (by decide) 99
  exact ⟨hrep, s', h1, h3, h4, h5⟩

/-- C4: on every well-formed non-empty list holding `xs`, `AddBack(v)` leaves `xs ++ [v]`
(size `n+1`), whereas `AddAt(Size(), v)` calls `AddBack(v)`, does not return, and then
splices a second node in front of the new tail: it leaves `xs ++ [v, v]`, size `n+2`. -/
theorem AddAt_at_size_inserts_twice {s : Store T} {list : Nat} {ps : List Nat}
    {xs : List T} (h : Represents s list ps xs) (hne : xs ≠ []) (v : T) :
    ∃ s1 s2, AddBack s (some list) v = .ok (true, s1) ∧
      Represents s1 list (ps ++ [s.nodes.length]) (xs ++ [v]) ∧
      Size s1 (some list) = .ok ((xs.length : Int) + 1, s1) ∧
      AddAt s (some list) (xs.length : Int) v = .ok (true, s2) ∧
      Represents s2 list (ps ++ [s.nodes.length + 1, s.nodes.length]) (xs ++ [v, v]) ∧
      Size s2 (some list) = .ok ((xs.length : Int) + 2, s2) := by
  have hlen := Represents_length_eq h
  have hn0 := Represents_size_ne_zero h hne
  obtain ⟨s1, hback, hrep1, hlen1⟩ := AddBack_append h hne v
  have hunf := AddAt_at_size_unfold v h.obj hn0 hback hrep1.obj (by simp)
  simp only [hlen] at hunf
  rcases List.eq_nil_or_concat xs with hx | ⟨xs1, x, hx⟩
  · exact absurd hx hne
  rcases List.eq_nil_or_concat ps with hp | ⟨ps1, c, hp⟩
  · subst hp; subst hx; simp at hlen
  rw [List.concat_eq_append] at hp hx
  subst hp; subst hx
  have hl1 : ps1.length = xs1.length := by simpa using hlen
  have hrep1' : Represents s1 list (ps1 ++ c :: s.nodes.length :: [])
      (xs1 ++ x :: v :: []) := by simpa using hrep1
  obtain ⟨s2, hexec, hrep2⟩ := AddAt_splice ps1 c s.nodes.length [] xs1 x v [] hl1 hrep1' v
  have hidx : ((ps1.length : Int) + 1) = ((xs1 ++ [x]).length : Int) := by
    simp [hl1]
  rw [hidx, ← hunf] at hexec
  rw [hlen1] at hrep2
  have hrep2' : Represents s2 list (ps1 ++ [c] ++ [s.nodes.length + 1, s.nodes.length])
      (xs1 ++ [x] ++ [v, v]) := by simpa using hrep2
  refine ⟨s1, s2, hback, hrep1, ?_, hexec, hrep2', ?_⟩
  · simpa using Size_of_represents hrep1
  · have := Size_of_represents hrep2'
    rw [this]
    simp
    omega

theorem AddAt_at_size_inserts_twice_witness :
    Represents list_10 0 [0] [10] ∧
    ∃ s1 s2, AddBack list_10 (some 0) 99 = .ok (true, s1) ∧
      Represents s1 0 [0, 1] [10, 99] ∧ Size s1 (some 0) = .ok (2, s1) ∧
      AddAt list_10 (some 0) 1 99 = .ok (true, s2) ∧
      Represents s2 0 [0, 2, 1] [10, 99, 99] ∧ Size s2 (some 0) = .ok (3, s2) := by
  have hrep : Represents list_10 0 [0] [10] := by decide
  exact ⟨hrep, AddAt_at_size_inserts_twice hrep (by simp) 99⟩

/-- C5: on a well-formed list holding `xs` with `n >= 3` elements, `RemoveAt(i)` at an
interior index `0 < i < n-1` returns `xs[i]` and leaves a well-formed list (forward and
backward links) holding `xs` with position `i` erased, of size `n-1`.  On `[10,20,30]`,
`RemoveAt(1)` returns 20, leaves `[10,30]`, and `IndexOf(30)` then returns 1 (given that
`fmt.Sprint` renders 10 and 30 differently). -/
theorem RemoveAt_interior :
    (∀ (T : Type) [Inhabited T] (s : Store T) (list : Nat) (ps : List Nat) (xs : List T),
      Represents s list ps xs → ∀ i : Nat, 0 < i → i + 1 < xs.length →
      ∃ x s', xs[i]? = some x ∧ RemoveAt s (some list) (i : Int) = .ok (x, s') ∧
        Size s' (some list) = .ok ((xs.length : Int) - 1, s') ∧
        Represents s' list (ps.eraseIdx i) (xs.eraseIdx i)) ∧
    (∀ (sprint : Int → String) (fuel : Nat) (s : Store Int) (list : Nat) (ps : List Nat),
      sprint 10 ≠ sprint 30 → 2 ≤ fuel → Represents s list ps [10, 20, 30] →
      ∃ s', RemoveAt s (some list) 1 = .ok (20, s') ∧
        Represents s' list (ps.eraseIdx 1) [10, 30] ∧
        IndexOf sprint fuel s' (some list) 30 = .ok (1, s')) := by
  have general : ∀ (T : Type) [Inhabited T] (s : Store T) (list : Nat) (ps : List Nat)
      (xs : List T), Represents s list ps xs → ∀ i : Nat, 0 < i → i + 1 < xs.length →
      ∃ x s', xs[i]? = some x ∧ RemoveAt s (some list) (i : Int) = .ok (x, s') ∧
        Size s' (some list) = .ok ((xs.length : Int) - 1, s') ∧
        Represents s' list (ps.eraseIdx i) (xs.eraseIdx i) := by
    intro T _ s list ps xs h i h0 hi
    have hlen := Represents_length_eq h
    obtain ⟨ps1, a, r, xs1, xa, xr, hps, hxs, hl1, hl2, -, -⟩ :=
      split_lists hlen (i - 1) (by omega)
    have hrl : r.length = ps.length - i := by
      have := congrArg List.length hps
      simp at this
      omega
    have hxrl : xr.length = ps.length - i := by
      have := congrArg List.length hxs
      simp at this
      omega
    obtain ⟨c, b, ps2, rfl⟩ : ∃ c b ps2, r = c :: b :: ps2 := by
      match r, hrl with
      | [], hr => simp at hr; omega
      | [_], hr => simp at hr; omega
      | c :: b :: ps2, _ => exact ⟨c, b, ps2, rfl⟩
    obtain ⟨xc, xb, xs2, rfl⟩ : ∃ xc xb xs2, xr = xc :: xb :: xs2 := by
      match xr, hxrl with
      | [], hr => simp at hr; omega
      | [_], hr => simp at hr; omega
      | xc :: xb :: xs2, _ => exact ⟨xc, xb, xs2, rfl⟩
    have h' := h
    rw [hps, hxs] at h'
    obtain ⟨s', hexec, hrep⟩ :=
      RemoveAt_unlink ps1 a c b ps2 xs1 xa xc xb xs2 (hl1.trans hl2.symm) h'
    have hidx : ((ps1.length : Int) + 1) = (i : Int) := by omega
    rw [hidx] at hexec
    have eps : ps.eraseIdx i = ps1 ++ a :: b :: ps2 := by
      have e : ps = (ps1 ++ [a]) ++ c :: (b :: ps2) := by simp [hps]
      have el : (ps1 ++ [a]).length = i := by simp; omega
      rw [e, ← el, eraseIdx_middle]; simp
    have exs : xs.eraseIdx i = xs1 ++ xa :: xb :: xs2 := by
      have e : xs = (xs1 ++ [xa]) ++ xc :: (xb :: xs2) := by simp [hxs]
      have el : (xs1 ++ [xa]).length = i := by simp; omega
      rw [e, ← el, eraseIdx_middle]; simp
    have hxi : xs[i]? = some xc := by
      have e : xs = (xs1 ++ [xa]) ++ xc :: (xb :: xs2) := by simp [hxs]
      have el : (xs1 ++ [xa]).length = i := by simp; omega
      rw [e, ← el, List.getElem?_append_right (le_refl _)]; simp
    rw [← eps, ← exs] at hrep
    refine ⟨xc, s', hxi, hexec, ?_, hrep⟩
    have hsz := Size_of_represents hrep
    rw [hsz, List.length_eraseIdx]
    have : i < xs.length := by omega
    simp [this]
    omega
  refine ⟨general, ?_⟩
  intro sprint fuel s list ps hsp hfuel h
  obtain ⟨x, s', hx, hexec, -, hrep⟩ := general Int s list ps [10, 20, 30] h 1 (by decide)
    (by decide)
  simp only [List.getElem?_cons_succ, List.getElem?_cons_zero, Option.some.injEq] at hx
  subst hx
  refine ⟨s', hexec, hrep, ?_⟩
  have hio := IndexOf_of_represents sprint hrep fuel (by simpa using hfuel) 30
  rw [hio]
  have hne : (sprint 10 == sprint 30) = false := by simpa using hsp
  simp [firstMatch, DefaultEquals, hne, List.eraseIdx]

theorem RemoveAt_interior_witness :
    Represents list_10_20_30 0 [0, 1, 2] [10, 20, 30] ∧
    (∃ x s', ([10, 20, 30] : List Int)[1]? = some x ∧
      RemoveAt list_10_20_30 (some 0) 1 = .ok (x, s') ∧
      Size s' (some 0) = .ok (2, s') ∧ Represents s' 0 [0, 2] [10, 30]) ∧
    (fun n : Int => toString n) 10 ≠ (fun n : Int => toString n) 30 ∧
    ∃ s', RemoveAt list_10_20_30 (some 0) 1 = .ok (20, s') ∧
      Represents s' 0 [0, 2] [10, 30] ∧
      IndexOf (fun n : Int => toString n) 2 s' (some 0) 30 = .ok (1, s') := by
  have hrep : Represents list_10_20_30 0 [0, 1, 2] [10, 20, 30] := by decide
  have hsp : (fun n : Int => toString n) 10 ≠ (fun n : Int => toString n) 30 := by decide
  exact ⟨hrep,
    RemoveAt_interior.1 Int list_10_20_30 0 [0, 1, 2] [10, 20, 30] hrep 1 (by decide)
      (by decide),
    hsp,
    RemoveAt_interior.2 (fun n : Int => toString n) 2 list_10_20_30 0 [0, 1, 2] hsp
      (by decide) hrep⟩

/-- C6: on every well-formed non-empty list `RemoveBack()` returns the last element and
writes nothing: the store is the one it started from, so the size is still `n` and
`PeekBack()` still returns the element that was to be removed. -/
theorem RemoveBack_removes_nothing [Inhabited T] {s : Store T} {list : Nat} {ps : List Nat}
    {xs : List T} (h : Represents s list ps xs) (hne : xs ≠ []) :
    ∃ x, xs.getLast? = some x ∧ RemoveBack s (some list) = .ok (x, s) ∧
      Size s (some list) = .ok ((xs.length : Int), s) ∧
      PeekBack s (some list) = .ok (x, s) := by
  obtain ⟨c, x, prev, hc1, hx1, -, hc⟩ := Represents_last_cell h hne
  have hobj := h.obj
  rw [hc1] at hobj
  have hn0 := Represents_size_ne_zero h hne
  exact ⟨x, hx1, RemoveBack_exec hobj hn0 hc rfl, Size_of_represents h,
    PeekBack_exec hobj hn0 hc⟩

theorem RemoveBack_removes_nothing_witness :
    Represents list_10_20 0 [0, 1] [10, 20] ∧
    RemoveBack list_10_20 (some 0) = .ok (20, list_10_20) ∧
    Size list_10_20 (some 0) = .ok (2, list_10_20) ∧
    PeekBack list_10_20 (some 0) = .ok (20, list_10_20) := by
  have hrep : Represents list_10_20 0 [0, 1] [10, 20] := by decide
  obtain ⟨x, h1, h2, h3, h4⟩ := RemoveBack_removes_nothing hrep (by simp)
  cases h1
  exact ⟨hrep, h2, h3, h4⟩

/-- C7: on a well-formed list holding `x` followed by a non-empty `rest`, `RemoveFront()`
returns `x` and leaves a well-formed list holding `rest`: the size is `n-1`, the new head
is the old second node and has no previous node, and the tail pointer is the old one. -/
theorem RemoveFront_of_two [Inhabited T] {s : Store T} {list : Nat} {ps : List Nat}
    {x : T} {rest : List T} (h : Represents s list ps (x :: rest)) (hne : rest ≠ []) :
    ∃ s', RemoveFront s (some list) = .ok (x, s') ∧
      Represents s' list ps.tail rest ∧
      Size s (some list) = .ok ((rest.length : Int) + 1, s) ∧
      Size s' (some list) = .ok ((rest.length : Int), s') ∧
      (∃ l l' hn, s.lists[list]? = some l ∧ s'.lists[list]? = some l' ∧
        l'.tail = l.tail ∧ l'.head = ps.tail.head? ∧
        loadNode s' l'.head = .ok hn ∧ hn.previous = none) := by
  have hlen := Represents_length_eq h
  obtain ⟨y, xs2, rfl⟩ : ∃ y xs2, rest = y :: xs2 := by
    cases rest with
    | nil => exact absurd rfl hne
    | cons y xs2 => exact ⟨y, xs2, rfl⟩
  obtain ⟨a, b, ps2, rfl⟩ : ∃ a b ps2, ps = a :: b :: ps2 := by
    match ps, hlen with
    | [], hr => simp at hr
    | [_], hr => simp at hr
    | a :: b :: ps2, _ => exact ⟨a, b, ps2, rfl⟩
  obtain ⟨s', hexec, hrep⟩ := RemoveFront_unlink a b ps2 x y xs2 h
  refine ⟨s', hexec, hrep, ?_, Size_of_represents hrep, ?_⟩
  · simpa using Size_of_represents h
  · have hch := hrep.chain
    simp only [Seg] at hch
    refine ⟨_, _, _, h.obj, hrep.obj, ?_, rfl, loadNode_of hch.1, rfl⟩
    simp [List.getLast?_cons_cons]

theorem RemoveFront_of_two_witness :
    Represents list_10_20 0 [0, 1] [10, 20] ∧
    ∃ s', RemoveFront list_10_20 (some 0) = .ok (10, s') ∧
      Represents s' 0 [1] [20] ∧ Size s' (some 0) = .ok (1, s') := by
  have hrep : Represents list_10_20 0 [0, 1] [10, 20] := by decide
  obtain ⟨s', h1, h2, -, h4, -⟩ := RemoveFront_of_two hrep (by simp)
  exact ⟨hrep, s', h1, h2, h4⟩

/-- C8: on every well-formed list holding exactly one element `x`, `RemoveFront()` returns
`x` and writes nothing: the store is the one it started from, so the size is still 1,
`IsEmpty()` is false and `PeekFront()` still returns `x`. -/
theorem RemoveFront_single_removes_nothing [Inhabited T] {s : Store T} {list : Nat}
    {ps : List Nat} {x : T} (h : Represents s list ps [x]) :
    RemoveFront s (some list) = .ok (x, s) ∧
      Size s (some list) = .ok (1, s) ∧
      IsEmpty s (some list) = .ok (false, s) ∧
      PeekFront s (some list) = .ok (x, s) := by
  have hlen := Represents_length_eq h
  obtain ⟨a, rfl⟩ : ∃ a, ps = [a] := by
    cases ps with
    | nil => simp at hlen
    | cons a ps =>
      cases ps with
      | nil => exact ⟨a, rfl⟩
      | cons b ps => simp at hlen
  have hobj := h.obj
  have hch := h.chain
  simp only [Seg, firstOr] at hch
  simp only [List.head?_cons, List.length_singleton, Nat.cast_one] at hobj
  refine ⟨RemoveFront_exec_single hobj (by decide) hch.1 rfl, ?_, ?_,
    PeekFront_exec hobj (by decide) hch.1⟩
  · simpa using Size_of_represents h
  · simp [IsEmpty, loadList_of hobj, bind, Except.bind, pure, Except.pure]

theorem RemoveFront_single_removes_nothing_witness :
    Represents list_10 0 [0] [10] ∧
    RemoveFront list_10 (some 0) = .ok (10, list_10) ∧
    Size list_10 (some 0) = .ok (1, list_10) ∧
    IsEmpty list_10 (some 0) = .ok (false, list_10) ∧
    PeekFront list_10 (some 0) = .ok (10, list_10) := by
  have hrep : Represents list_10 0 [0] [10] := by decide
  exact ⟨hrep, RemoveFront_single_removes_nothing hrep⟩

/-- C9: on every well-formed list, with fuel for at least `Size()` loop tests, `IndexOf(v)`
returns and leaves the store as it found it; the result is `-1` exactly when no stored
element matches `v` under `DefaultEquals` (the empty list included), and otherwise it is
the smallest `k < Size()` such that `DefaultEquals` reports `Get(k)` equal to `v`. -/
theorem IndexOf_first_match [Inhabited T] (sprint : T → String) {s : Store T} {list : Nat}
    {ps : List Nat} {xs : List T} (h : Represents s list ps xs) (fuel : Nat)
    (hfuel : xs.length ≤ fuel) (v : T) :
    ∃ r, IndexOf sprint fuel s (some list) v = .ok (r, s) ∧
      Size s (some list) = .ok ((xs.length : Int), s) ∧
      (r = -1 ↔ ∀ x ∈ xs, DefaultEquals sprint x v = false) ∧
      (r ≠ -1 → ∃ k : Nat, r = (k : Int) ∧ k < xs.length ∧
        (∃ x, Get s (some list) (k : Int) = .ok (x, s) ∧ DefaultEquals sprint x v = true) ∧
        ∀ j : Nat, j < k →
          ∃ y, Get s (some list) (j : Int) = .ok (y, s) ∧ DefaultEquals sprint y v = false) := by
  refine ⟨_, IndexOf_of_represents sprint h fuel hfuel v, Size_of_represents h, ?_, ?_⟩
  · rcases firstMatch_spec sprint v xs 0 with ⟨h1, h2⟩ | ⟨j, h1, h2, ⟨x, hx1, hx2⟩, -⟩
    · exact ⟨fun _ => h2, fun _ => h1⟩
    · constructor
      · intro hr
        rw [h1] at hr
        omega
      · intro hall
        have hm : x ∈ xs := List.getElem?_mem hx1
        rw [hall x hm] at hx2
        exact absurd hx2 (by simp)
  · intro hr
    rcases firstMatch_spec sprint v xs 0 with ⟨h1, -⟩ | ⟨j, h1, h2, ⟨x, hx1, hx2⟩, h4⟩
    · exact absurd h1 hr
    · refine ⟨j, by simpa using h1, h2, ⟨x, Get_of_represents h j x hx1, hx2⟩, ?_⟩
      intro i hi
      obtain ⟨y, hy1, hy2⟩ := h4 i hi
      exact ⟨y, Get_of_represents h i y hy1, hy2⟩

theorem IndexOf_first_match_witness :
    Represents list_10_20_30 0 [0, 1, 2] [10, 20, 30] ∧
    ∃ r, IndexOf (fun n : Int => toString n) 3 list_10_20_30 (some 0) 30
        = .ok (r, list_10_20_30) ∧ r ≠ -1 ∧ r = 2 := by
  have hrep : Represents list_10_20_30 0 [0, 1, 2] [10, 20, 30] := by decide
  obtain ⟨r, h1, -, h3, -⟩ :=
    IndexOf_first_match (fun n : Int => toString n) hrep 3 (by decide) 30
  have heval : IndexOf (fun n : Int => toString n) 3 list_10_20_30 (some 0) 30
      = .ok (2, list_10_20_30) := by rfl
  refine ⟨hrep, r, h1, ?_, ?_⟩
  · intro hr
    have := h3.1 hr 30 (by simp)
    simp [DefaultEquals] at this
  · rw [heval] at h1
    cases h1
    rfl

/-- C10: on every well-formed non-empty list `PeekFront()` and `Get(0)` return the same
value (the first element), `PeekBack()` and `Get(Size()-1)` return the same value (the last
element), and each call leaves the store as it found it. -/
theorem Peek_eq_Get [Inhabited T] {s : Store T} {list : Nat} {ps : List Nat} {xs : List T}
    (h : Represents s list ps xs) (hne : xs ≠ []) :
    ∃ x y n, xs.head? = some x ∧ xs.getLast? = some y ∧
      PeekFront s (some list) = .ok (x, s) ∧ Get s (some list) 0 = .ok (x, s) ∧
      Size s (some list) = .ok (n, s) ∧
      PeekBack s (some list) = .ok (y, s) ∧ Get s (some list) (n - 1) = .ok (y, s) := by
  obtain ⟨c, y, prev, hc1, hy1, hy2, hc⟩ := Represents_last_cell h hne
  obtain ⟨a, x, nxt, ha1, hx1, hx2, ha⟩ := Represents_first_cell h hne
  have hobj := h.obj
  rw [hc1, ha1] at hobj
  have hn0 := Represents_size_ne_zero h hne
  refine ⟨x, y, (xs.length : Int), hx1, hy1, PeekFront_exec hobj hn0 ha, ?_,
    Size_of_represents h, PeekBack_exec hobj hn0 hc, ?_⟩
  · simpa using Get_of_represents h 0 x hx2
  · have hpos : 0 < xs.length := List.length_pos.2 hne
    have := Get_of_represents h (xs.length - 1) y hy2
    rw [Nat.cast_sub hpos] at this
    simpa using this

theorem Peek_eq_Get_witness :
    Represents list_10_20_30 0 [0, 1, 2] [10, 20, 30] ∧
    ∃ x y n, ([10, 20, 30] : List Int).head? = some x ∧
      ([10, 20, 30] : List Int).getLast? = some y ∧
      PeekFront list_10_20_30 (some 0) = .ok (x, list_10_20_30) ∧
      Get list_10_20_30 (some 0) 0 = .ok (x, list_10_20_30) ∧
      Size list_10_20_30 (some 0) = .ok (n, list_10_20_30) ∧
      PeekBack list_10_20_30 (some 0) = .ok (y, list_10_20_30) ∧
      Get list_10_20_30 (some 0) (n - 1) = .ok (y, list_10_20_30) := by
  have hrep : Represents list_10_20_30 0 [0, 1, 2] [10, 20, 30] := by decide
  exact ⟨hrep, Peek_eq_Get hrep (by simp)⟩

/-- C11: on the empty list of `NewLinkedList()`, `AddFront(v)` returns true and stores
nothing, so the `RemoveFront()` that follows returns the zero value, not `v`; the size is 0
before and after. -/
theorem AddFront_RemoveFront_after_NewLinkedList [Inhabited T] (s : Store T) (v : T) :
    ∃ s1, AddFront (NewLinkedList s).2 (NewLinkedList s).1 v = .ok (true, s1) ∧
      RemoveFront s1 (NewLinkedList s).1 = .ok (default, s1) ∧
      Size (NewLinkedList s).2 (NewLinkedList s).1 = .ok (0, (NewLinkedList s).2) ∧
      Size s1 (NewLinkedList s).1 = .ok (0, s1) := by
  obtain ⟨hp, hobj⟩ := NewLinkedList_obj s
  rw [hp]
  obtain ⟨s1, h1, hobj1⟩ := AddFront_keeps_empty hobj v
  exact ⟨s1, h1, RemoveFront_size_zero hobj1 rfl, Size_obj hobj, Size_obj hobj1⟩

/-- C12: starting from `NewLinkedList()`, after `N` insertions (each `AddFront` or
`AddBack`) followed by `N` removals (each `RemoveFront` or `RemoveBack`), every call has
returned, `Size()` is 0 and `IsEmpty()` is true. -/
theorem insert_then_remove_all [Inhabited T] (sprint : T → String) (fuel : Nat)
    (s : Store T) (N : Nat) (ins rems : List (Operation T))
    (_hins : ins.length = N) (_hrems : rems.length = N)
    (_hi : ∀ op ∈ ins, op.isInsertion = true) (_hr : ∀ op ∈ rems, op.isRemoval = true) :
    ∃ s', runAll sprint fuel (NewLinkedList s).1 (NewLinkedList s).2 (ins ++ rems) = .ok s' ∧
      Size s' (NewLinkedList s).1 = .ok (0, s') ∧
      IsEmpty s' (NewLinkedList s).1 = .ok (true, s') := by
  obtain ⟨hp, hobj⟩ := NewLinkedList_obj s
  rw [hp]
  obtain ⟨s', h1, hobj'⟩ := runAll_empty sprint fuel hobj (ins ++ rems)
  exact ⟨s', h1, Size_obj hobj', IsEmpty_obj hobj'⟩

theorem insert_then_remove_all_witness :
    ∃ s', runAll (fun n : Int => toString n) 0 (NewLinkedList (Store.empty : Store Int)).1
        (NewLinkedList (Store.empty : Store Int)).2
        ([.addFront 1, .addBack 2] ++ [.removeBack, .removeFront]) = .ok s' ∧
      Size s' (NewLinkedList (Store.empty : Store Int)).1 = .ok (0, s') ∧
      IsEmpty s' (NewLinkedList (Store.empty : Store Int)).1 = .ok (true, s') :=
  insert_then_remove_all (fun n : Int => toString n) 0 (Store.empty : Store Int) 2
    [.addFront 1, .addBack 2] [.removeBack, .removeFront] rfl rfl (by decide) (by decide)

/-- C13: `Clear()` writes nothing: on every well-formed non-empty list the store after the
call is the store before it, so `Size()` is still `n >= 1`, `IsEmpty()` is false and
`PeekFront()` still returns the first element. -/
theorem Clear_clears_nothing [Inhabited T] {s : Store T} {list : Nat} {ps : List Nat}
    {x : T} {rest : List T} (h : Represents s list ps (x :: rest)) :
    Clear s (some list) = .ok ((), s) ∧
      Size s (some list) = .ok ((rest.length : Int) + 1, s) ∧
      IsEmpty s (some list) = .ok (false, s) ∧
      PeekFront s (some list) = .ok (x, s) ∧
      Get s (some list) 0 = .ok (x, s) := by
  have hne : x :: rest ≠ [] := by simp
  have hn0 := Represents_size_ne_zero h hne
  obtain ⟨a, y, nxt, ha1, hy1, -, ha⟩ := Represents_first_cell h hne
  cases hy1
  have hobj := h.obj
  rw [ha1] at hobj
  refine ⟨rfl, by simpa using Size_of_represents h, ?_, PeekFront_exec hobj hn0 ha, ?_⟩
  · rw [IsEmpty_obj h.obj]
    simp [hn0]
  · simpa using Get_of_represents h 0 x (by simp)

theorem Clear_clears_nothing_witness :
    Represents list_10_20 0 [0, 1] [10, 20] ∧
    Clear list_10_20 (some 0) = .ok ((), list_10_20) ∧
    Size list_10_20 (some 0) = .ok (2, list_10_20) ∧
    IsEmpty list_10_20 (some 0) = .ok (false, list_10_20) ∧
    PeekFront list_10_20 (some 0) = .ok (10, list_10_20) ∧
    Get list_10_20 (some 0) 0 = .ok (10, list_10_20) := by
  have hrep : Represents list_10_20 0 [0, 1] [10, 20] := by decide
  exact ⟨hrep, Clear_clears_nothing hrep⟩

/-- C14: on a well-formed list of size `n`, `Get(i)` and `RemoveAt(i)` return the zero
value for every `i < 0` or `i >= n`, and `AddAt(i, v)` returns false for every `i < 0` or
`i > n`; each of the three calls leaves the store exactly as it found it. -/
theorem out_of_range_rejected [Inhabited T] {s : Store T} {list : Nat} {ps : List Nat}
    {xs : List T} (h : Represents s list ps xs) (i : Int) (v : T) :
    Size s (some list) = .ok ((xs.length : Int), s) ∧
    ((i < 0 ∨ (xs.length : Int) ≤ i) →
      Get s (some list) i = .ok (default, s) ∧
      RemoveAt s (some list) i = .ok (default, s)) ∧
    ((i < 0 ∨ (xs.length : Int) < i) → AddAt s (some list) i v = .ok (false, s)) := by
  have hlen := Represents_length_eq h
  refine ⟨Size_of_represents h, ?_, ?_⟩
  · intro hr
    have hr' : i < 0 ∨ (⟨ps.head?, ps.getLast?, (ps.length : Int)⟩ : LinkedList).size ≤ i := by
      simpa [hlen] using hr
    exact ⟨Get_out_of_range h.obj i hr', RemoveAt_out_of_range h.obj (by simp) i hr'⟩
  · intro hr
    refine AddAt_out_of_range v h.obj (by omega) ?_ ?_
    · simp only [hlen]; omega
    · simp only [hlen]; omega

theorem out_of_range_rejected_witness :
    Represents list_10_20_30 0 [0, 1, 2] [10, 20, 30] ∧
    Get list_10_20_30 (some 0) 3 = .ok (0, list_10_20_30) ∧
    RemoveAt list_10_20_30 (some 0) 3 = .ok (0, list_10_20_30) ∧
    AddAt list_10_20_30 (some 0) 4 99 = .ok (false, list_10_20_30) ∧
    Get list_10_20_30 (some 0) (-1) = .ok (0, list_10_20_30) ∧
    RemoveAt list_10_20_30 (some 0) (-1) = .ok (0, list_10_20_30) ∧
    AddAt list_10_20_30 (some 0) (-1) 99 = .ok (false, list_10_20_30) := by
  have hrep : Represents list_10_20_30 0 [0, 1, 2] [10, 20, 30] := by decide
  have h3 := (out_of_range_rejected hrep 3 99).2.1 (by decide)
  have h4 := (out_of_range_rejected hrep 4 99).2.2 (by decide)
  have hm := out_of_range_rejected hrep (-1) 99
  exact ⟨hrep, h3.1, h3.2, h4, (hm.2.1 (by decide)).1, (hm.2.1 (by decide)).2,
    hm.2.2 (by decide)⟩

/-- C15: on the empty list returned by `NewLinkedList()`, for every index `i`, value `v`
and fuel: `PeekFront`, `PeekBack`, `Get(i)`, `RemoveFront`, `RemoveBack`, `RemoveAt(i)` and
`Remove(v)` return the zero value, `IndexOf(v)` returns -1, `Contains(v)` returns false and
`AddAt(i, v)` with `i != 0` returns false; every call returns (none panics) and leaves the
store, hence the empty list, as it found it. -/
theorem empty_list_sentinels [Inhabited T] (sprint : T → String) (fuel : Nat) (s : Store T)
    (i : Int) (v : T) :
    PeekFront (NewLinkedList s).2 (NewLinkedList s).1 = .ok (default, (NewLinkedList s).2) ∧
    PeekBack (NewLinkedList s).2 (NewLinkedList s).1 = .ok (default, (NewLinkedList s).2) ∧
    Get (NewLinkedList s).2 (NewLinkedList s).1 i = .ok (default, (NewLinkedList s).2) ∧
    RemoveFront (NewLinkedList s).2 (NewLinkedList s).1
      = .ok (default, (NewLinkedList s).2) ∧
    RemoveBack (NewLinkedList s).2 (NewLinkedList s).1
      = .ok (default, (NewLinkedList s).2) ∧
    RemoveAt (NewLinkedList s).2 (NewLinkedList s).1 i
      = .ok (default, (NewLinkedList s).2) ∧
    Remove sprint fuel (NewLinkedList s).2 (NewLinkedList s).1 v
      = .ok (default, (NewLinkedList s).2) ∧
    IndexOf sprint fuel (NewLinkedList s).2 (NewLinkedList s).1 v
      = .ok (-1, (NewLinkedList s).2) ∧
    Contains sprint fuel (NewLinkedList s).2 (NewLinkedList s).1 v
      = .ok (false, (NewLinkedList s).2) ∧
    (i ≠ 0 → AddAt (NewLinkedList s).2 (NewLinkedList s).1 i v
      = .ok (false, (NewLinkedList s).2)) ∧
    Size (NewLinkedList s).2 (NewLinkedList s).1 = .ok (0, (NewLinkedList s).2) ∧
    IsEmpty (NewLinkedList s).2 (NewLinkedList s).1 = .ok (true, (NewLinkedList s).2) := by
  obtain ⟨hp, hobj⟩ := NewLinkedList_obj s
  rw [hp]
  exact ⟨PeekFront_size_zero hobj rfl, PeekBack_size_zero hobj rfl, Get_size_zero hobj rfl i,
    RemoveFront_size_zero hobj rfl, RemoveBack_size_zero hobj rfl,
    RemoveAt_size_zero hobj rfl i, Remove_size_zero sprint fuel hobj rfl v,
    IndexOf_size_zero sprint fuel hobj rfl v, Contains_size_zero sprint fuel hobj rfl v,
    fun hi => AddAt_size_zero hobj rfl i hi v, Size_obj hobj, IsEmpty_obj hobj⟩

theorem empty_list_sentinels_witness :
    AddAt (NewLinkedList (Store.empty : Store Int)).2
      (NewLinkedList (Store.empty : Store Int)).1 1 7
      = .ok (false, (NewLinkedList (Store.empty : Store Int)).2) :=
  (empty_list_sentinels (fun n : Int => toString n) 0 (Store.empty : Store Int) 1 7).2.2.2.2.2.2.2.2.2.1
    (by decide)

/-- C16: on a well-formed list, with fuel for at least `Size()` loop tests: if no stored
element matches `v` under `DefaultEquals`, `Remove(v)` returns the zero value and leaves the
store as it found it; otherwise `IndexOf(v)` returns some `k` with `0 <= k < Size()`, and
`Remove(v)` returns the value `Get(k)` had before the call. -/
theorem Remove_returns_first_match [Inhabited T] (sprint : T → String) {s : Store T}
    {list : Nat} {ps : List Nat} {xs : List T} (h : Represents s list ps xs) (fuel : Nat)
    (hfuel : xs.length ≤ fuel) (v : T) :
    ((∀ x ∈ xs, DefaultEquals sprint x v = false) →
      Remove sprint fuel s (some list) v = .ok (default, s)) ∧
    ((∃ x ∈ xs, DefaultEquals sprint x v = true) →
      ∃ (k : Nat) (x : T) (s' : Store T), k < xs.length ∧
        IndexOf sprint fuel s (some list) v = .ok ((k : Int), s) ∧
        Get s (some list) (k : Int) = .ok (x, s) ∧
        DefaultEquals sprint x v = true ∧
        Remove sprint fuel s (some list) v = .ok (x, s')) := by
  have hio := IndexOf_of_represents sprint h fuel hfuel v
  have hun := Remove_unfold sprint h fuel hfuel v
  constructor
  · intro hall
    rcases firstMatch_spec sprint v xs 0 with ⟨h1, -⟩ | ⟨j, -, -, ⟨x, hx1, hx2⟩, -⟩
    · rw [hun, if_pos h1]
    · rw [hall x (List.getElem?_mem hx1)] at hx2
      exact absurd hx2 (by simp)
  · rintro ⟨y, hy, hym⟩
    rcases firstMatch_spec sprint v xs 0 with ⟨-, h2⟩ | ⟨j, h1, h2, ⟨x, hx1, hx2⟩, -⟩
    · rw [h2 y hy] at hym
      exact absurd hym (by simp)
    · have hj : firstMatch sprint v xs 0 = (j : Int) := by simpa using h1
      obtain ⟨s', ps', xs', hrun, -⟩ := RemoveAt_value h j x hx1
      refine ⟨j, x, s', h2, ?_, Get_of_represents h j x hx1, hx2, ?_⟩
      · rw [hio, hj]
      · rw [hun, hj, if_neg (by omega)]
        exact hrun

theorem Remove_returns_first_match_witness :
    Represents list_10_20_30 0 [0, 1, 2] [10, 20, 30] ∧
    Remove (fun n : Int => toString n) 3 list_10_20_30 (some 0) 7
      = .ok (0, list_10_20_30) ∧
    ∃ (k : Nat) (x : Int) (s' : Store Int), k < 3 ∧
      IndexOf (fun n : Int => toString n) 3 list_10_20_30 (some 0) 20
        = .ok ((k : Int), list_10_20_30) ∧
      Get list_10_20_30 (some 0) (k : Int) = .ok (x, list_10_20_30) ∧
      DefaultEquals (fun n : Int => toString n) x 20 = true ∧
      Remove (fun n : Int => toString n) 3 list_10_20_30 (some 0) 20 = .ok (x, s') := by
  have hrep : Represents list_10_20_30 0 [0, 1, 2] [10, 20, 30] := by decide
  have h7 := (Remove_returns_first_match (fun n : Int => toString n) hrep 3 (by decide) 7).1
    (by decide)
  have h20 := (Remove_returns_first_match (fun n : Int => toString n) hrep 3 (by decide) 20).2
    ⟨20, by decide, by decide⟩
  exact ⟨hrep, h7, h20⟩

/-- C17: on an absent (nil) list, `PeekFront()` and `PeekBack()` return the zero value and
so does `Get(i)` for `i < 0`, but for every `i >= 0` `Get(i)` dereferences the nil list
(`list.size` is read before `list == nil` is tested) and panics. -/
theorem Get_on_nil_list [Inhabited T] (s : Store T) (i : Int) :
    PeekFront s none = .ok (default, s) ∧
    PeekBack s none = .ok (default, s) ∧
    (i < 0 → Get s none i = .ok (default, s)) ∧
    (0 ≤ i → Get s none i = .error .nilDeref) := by
  refine ⟨by simp [PeekFront, pure, Except.pure], by simp [PeekBack, pure, Except.pure], ?_, ?_⟩
  · intro hi
    simp [Get, hi, pure, Except.pure]
  · intro hi
    have hi' : ¬ i < 0 := by omega
    simp [Get, hi', loadList, bind, Except.bind]

theorem Get_on_nil_list_witness :
    Get (Store.empty : Store Int) none 0 = .error .nilDeref ∧
    Get (Store.empty : Store Int) none (-1) = .ok (0, Store.empty) :=
  ⟨(Get_on_nil_list (Store.empty : Store Int) 0).2.2.2 (by decide),
    (Get_on_nil_list (Store.empty : Store Int) (-1)).2.2.1 (by decide)⟩

/-- C18: if the list satisfies the structural invariants (a), (b) and (c), then any call of
`AddFront`, `AddBack`, `AddAt`, `FromArray`, `Size`, `IsEmpty`, `PeekFront`, `PeekBack`,
`Get`, `IndexOf`, `Contains`, `RemoveFront`, `RemoveBack`, `Remove`, `RemoveAt` or `Clear`,
with any arguments (and fuel for at least `Size()` loop tests), returns and leaves a list
that satisfies (a), (b) and (c). -/
theorem invariants_preserved [Inhabited T] (sprint : T → String) (fuel : Nat) {s : Store T}
    {list : Nat} (n : Int) (h : Invariants s list)
    (hsize : Size s (some list) = .ok (n, s)) (hfuel : n ≤ (fuel : Int))
    (op : Operation T) :
    ∃ s', op.run sprint fuel s (some list) = .ok s' ∧ Invariants s' list := by
  obtain ⟨ps, xs, hrep⟩ := Represents_of_invariants h
  obtain ⟨s', ps', xs', hrun, hrep'⟩ :=
    Operation_run_total sprint hrep fuel (Invariants_fuel hrep hsize hfuel) op
  exact ⟨s', hrun, Invariants_of_represents hrep'⟩

theorem invariants_preserved_witness :
    Invariants list_10_20_30 0 ∧
    ∃ s', (Operation.addAt 3 99).run (fun n : Int => toString n) 3 list_10_20_30 (some 0)
        = .ok s' ∧ Invariants s' 0 :=
  ⟨Invariants_of_represents (by decide : Represents list_10_20_30 0 [0, 1, 2] [10, 20, 30]),
    invariants_preserved (fun n : Int => toString n) 3 3
      (Invariants_of_represents (by decide : Represents list_10_20_30 0 [0, 1, 2] [10, 20, 30]))
      rfl (by decide) (.addAt 3 99)⟩

/-- C19: on a non-nil list that satisfies the structural invariants, every public method,
with any arguments (and fuel for at least `Size()` loop tests), runs to completion: the call
returns a Go result and never reads or writes a field of an absent node or list.  This
covers the walks of `AddAt` (the `index == size` case included), `Get`, `IndexOf` and
`RemoveAt`, and the splices of `AddAt` and `RemoveAt`. -/
theorem no_nil_dereference [Inhabited T] (sprint : T → String) (fuel : Nat) {s : Store T}
    {list : Nat} (n : Int) (h : Invariants s list)
    (hsize : Size s (some list) = .ok (n, s)) (hfuel : n ≤ (fuel : Int)) :
    (∀ op : Operation T, ∃ s', op.run sprint fuel s (some list) = .ok s') ∧
    (∀ (i : Int) (v : T), ∃ r s', AddAt s (some list) i v = .ok (r, s')) ∧
    (∀ i : Int, ∃ r, Get s (some list) i = .ok (r, s)) ∧
    (∀ v : T, ∃ r, IndexOf sprint fuel s (some list) v = .ok (r, s)) ∧
    (∀ i : Int, ∃ r s', RemoveAt s (some list) i = .ok (r, s')) := by
  obtain ⟨ps, xs, hrep⟩ := Represents_of_invariants h
  have hf := Invariants_fuel hrep hsize hfuel
  refine ⟨?_, ?_, ?_, ?_, ?_⟩
  · intro op
    obtain ⟨s', ps', xs', hrun, -⟩ := Operation_run_total sprint hrep fuel hf op
    exact ⟨s', hrun⟩
  · intro i v
    obtain ⟨r, s', ps', xs', hrun, -⟩ := AddAt_total hrep i v
    exact ⟨r, s', hrun⟩
  · intro i
    exact Get_total hrep i
  · intro v
    exact ⟨_, IndexOf_of_represents sprint hrep fuel hf v⟩
  · intro i
    obtain ⟨r, s', ps', xs', hrun, -⟩ := RemoveAt_total hrep i
    exact ⟨r, s', hrun⟩

theorem no_nil_dereference_witness :
    Invariants list_10_20_30 0 ∧
    (∃ r s', AddAt list_10_20_30 (some 0) 3 99 = .ok (r, s')) ∧
    (∃ r s', RemoveAt list_10_20_30 (some 0) 2 = .ok (r, s')) :=
  have hinv : Invariants list_10_20_30 0 :=
    Invariants_of_represents (by decide : Represents list_10_20_30 0 [0, 1, 2] [10, 20, 30])
  ⟨hinv,
    (no_nil_dereference (fun n : Int => toString n) 3 3 hinv rfl (by decide)).2.1 3 99,
    (no_nil_dereference (fun n : Int => toString n) 3 3 hinv rfl (by decide)).2.2.2.2 2⟩

/-- C20: whatever sequence of public calls is run on the list of `NewLinkedList()`, every
call returns and the list object still has size 0 with head and tail absent; on such a
list `AddFront(v)`, `AddBack(v)` and `AddAt(0, v)` return true and leave the object as it
is, `Get`, `PeekFront` and `PeekBack` return the zero value and `IndexOf` returns -1. -/
theorem reachable_lists_are_empty [Inhabited T] (sprint : T → String) (fuel : Nat)
    (s : Store T) (ops : List (Operation T)) (v : T) (i : Int) :
    ∃ s', runAll sprint fuel (NewLinkedList s).1 (NewLinkedList s).2 ops = .ok s' ∧
      loadList s' (NewLinkedList s).1 = .ok ⟨none, none, 0⟩ ∧
      Size s' (NewLinkedList s).1 = .ok (0, s') ∧
      (∃ s1, AddFront s' (NewLinkedList s).1 v = .ok (true, s1) ∧
        loadList s1 (NewLinkedList s).1 = .ok ⟨none, none, 0⟩) ∧
      (∃ s1, AddBack s' (NewLinkedList s).1 v = .ok (true, s1) ∧
        loadList s1 (NewLinkedList s).1 = .ok ⟨none, none, 0⟩) ∧
      (∃ s1, AddAt s' (NewLinkedList s).1 0 v = .ok (true, s1) ∧
        loadList s1 (NewLinkedList s).1 = .ok ⟨none, none, 0⟩) ∧
      Get s' (NewLinkedList s).1 i = .ok (default, s') ∧
      PeekFront s' (NewLinkedList s).1 = .ok (default, s') ∧
      PeekBack s' (NewLinkedList s).1 = .ok (default, s') ∧
      IndexOf sprint fuel s' (NewLinkedList s).1 v = .ok (-1, s') := by
  obtain ⟨hp, hobj⟩ := NewLinkedList_obj s
  rw [hp]
  obtain ⟨s', hrun, hobj'⟩ := runAll_empty sprint fuel hobj ops
  obtain ⟨sf, hf1, hf2⟩ := AddFront_keeps_empty hobj' v
  obtain ⟨sb, hb1, hb2⟩ := AddBack_keeps_empty hobj' v
  refine ⟨s', hrun, loadList_of hobj', Size_obj hobj', ⟨sf, hf1, loadList_of hf2⟩,
    ⟨sb, hb1, loadList_of hb2⟩, ⟨sf, ?_, loadList_of hf2⟩, Get_size_zero hobj' rfl i,
    PeekFront_size_zero hobj' rfl, PeekBack_size_zero hobj' rfl,
    IndexOf_size_zero sprint fuel hobj' rfl v⟩
  rw [AddAt_zero]
  exact hf1

end linkedlist
